import Mathlib

/-!
# qlang/meta: member enumeration (Dir) and description (Doc)

A shallow embedding of `qlang/meta/meta.go`.

* A Go string is a sequence of bytes (`GoString`); it need not be valid UTF-8.
* Values reaching `Dir` and `Doc` through `interface{}` are described by `Iface`:
  the nil interface, a map, a `*exec.Class`, a `*exec.Object`, or any other
  (host) value, of which the code only inspects the reflected type.
* A call returns, panics, or does not end: the loop over the pointer levels of a
  type runs on fuel, and a call that runs out of every amount of fuel never returns.
* The registry `qlang.Fntable` that `FnList` and `FnTable` read is a parameter.
* Go does not fix the iteration order of a map.  A map is given by the list of
  its entries in the order in which `range` and `MapKeys` yield them; the
  theorems quantify over every such list.
-/

namespace QlangMeta

/-! ## Strings -/

/-- A Go string: a sequence of bytes. -/
abbrev GoString := List (Fin 256)

/-- The byte with the given value (the conversion `byte(x)` of Go, which keeps the low eight bits). -/
def byte (n : Nat) : Fin 256 := ⟨n % 256, Nat.mod_lt n (by decide)⟩

/-- The constant `utf8.RuneError`, U+FFFD. -/
def RuneError : Nat := 0xFFFD

/-- The function `utf8.EncodeRune` of the Go standard library on a rune `r`: the UTF-8 encoding
of `r`, where a rune out of range or a surrogate half is encoded as `RuneError`.
`t2 | byte(r>>6)` and the like are written with `+`, `/` and `%`: the operands have no bit in common. -/
def EncodeRune (r : Nat) : GoString :=
  if r ≤ 0x7F then [byte r]
  else if r ≤ 0x7FF then [byte (0xC0 + r / 64), byte (0x80 + r % 64)]
  else if r > 0x10FFFF ∨ (0xD800 ≤ r ∧ r ≤ 0xDFFF) then [byte 0xEF, byte 0xBF, byte 0xBD]
  else if r ≤ 0xFFFF then [byte (0xE0 + r / 4096), byte (0x80 + r / 64 % 64), byte (0x80 + r % 64)]
  else [byte (0xF0 + r / 262144), byte (0x80 + r / 4096 % 64), byte (0x80 + r / 64 % 64),
        byte (0x80 + r % 64)]

/-- A Go string literal: the UTF-8 encoding of its characters. -/
def lit (s : String) : GoString := s.toList.flatMap (fun c => EncodeRune c.toNat)

/-- The function `strings.HasPrefix`. -/
def HasPrefix (s p : GoString) : Bool := p.isPrefixOf s

/-- The table `first` of package `unicode/utf8`: information about the first byte of an encoding.
`0xF0` (`as`) is ASCII, `0xF1` (`xx`) is an invalid first byte; otherwise the low three bits give
the size of the encoding and the high four bits the index into `acceptRanges`. -/
def first (b : Nat) : Nat :=
  if b < 0x80 then 0xF0
  else if b < 0xC2 then 0xF1
  else if b < 0xE0 then 0x02
  else if b = 0xE0 then 0x13
  else if b < 0xED then 0x03
  else if b = 0xED then 0x23
  else if b < 0xF0 then 0x03
  else if b = 0xF0 then 0x34
  else if b < 0xF4 then 0x04
  else if b = 0xF4 then 0x44
  else 0xF1

/-- The table `acceptRanges` of package `unicode/utf8`: the bounds `(lo, hi)` of the second byte. -/
def acceptRanges (i : Nat) : Nat × Nat :=
  match i with
  | 0 => (0x80, 0xBF)
  | 1 => (0xA0, 0xBF)
  | 2 => (0x80, 0x9F)
  | 3 => (0x90, 0xBF)
  | 4 => (0x80, 0x8F)
  | _ => (0, 0)

/-- The function `utf8.DecodeRuneInString`: the first rune of `s` and the number of bytes of its
encoding; `(RuneError, 0)` for the empty string and `(RuneError, 1)` for an invalid encoding.
`x & 7` is `x % 8`, `x >> 4` is `x / 16`, `s0 & mask2` is `s0 % 32`, `s1 & maskx` is `s1 % 64`,
and the shifted parts, which share no bit, are added. -/
def DecodeRuneInString (s : GoString) : Nat × Nat :=
  match s with
  | [] => (RuneError, 0)
  | s0 :: t0 =>
    let x := first s0.val
    if x ≥ 0xF0 then
      (if x = 0xF0 then s0.val else RuneError, 1)
    else
      let sz := x % 8
      let accept := acceptRanges (x / 16)
      if s.length < sz then (RuneError, 1)
      else
        match t0 with
        | [] => (RuneError, 1)
        | s1 :: t1 =>
          if s1.val < accept.1 ∨ accept.2 < s1.val then (RuneError, 1)
          else if sz ≤ 2 then (s0.val % 32 * 64 + s1.val % 64, 2)
          else
            match t1 with
            | [] => (RuneError, 1)
            | s2 :: t2 =>
              if s2.val < 0x80 ∨ 0xBF < s2.val then (RuneError, 1)
              else if sz ≤ 3 then (s0.val % 16 * 4096 + s1.val % 64 * 64 + s2.val % 64, 3)
              else
                match t2 with
                | [] => (RuneError, 1)
                | s3 :: _ =>
                  if s3.val < 0x80 ∨ 0xBF < s3.val then (RuneError, 1)
                  else (s0.val % 8 * 262144 + s1.val % 64 * 4096 + s2.val % 64 * 64
                          + s3.val % 64, 4)

/-- The function `unicode.IsUpper` of the Go standard library.  In the Latin-1 range the answer
comes from the property table (the letters A to Z, U+00C0 to U+00D6 and U+00D8 to U+00DE);
beyond it the rune is looked up in the range table `unicode.Upper`, the parameter `upper`. -/
def IsUpper (upper : Nat → Bool) (r : Nat) : Bool :=
  if r ≤ 0xFF then
    (0x41 ≤ r && r ≤ 0x5A) || (0xC0 ≤ r && r ≤ 0xD6) || (0xD8 ≤ r && r ≤ 0xDE)
  else upper r

/-- The function `IsExported` of meta.go. -/
def IsExported (upper : Nat → Bool) (name : GoString) : Bool :=
  let ch := (DecodeRuneInString name).1
  IsUpper upper ch

/-- A Unicode code point that has a UTF-8 encoding: a scalar value. -/
def ValidRune (c : Nat) : Prop := c < 0xD800 ∨ (0xE000 ≤ c ∧ c ≤ 0x10FFFF)

/-- The string `s` starts with the UTF-8 encoding of the code point `c`. -/
def FirstCodePoint (s : GoString) (c : Nat) : Prop :=
  ValidRune c ∧ ∃ rest, s = EncodeRune c ++ rest

/-- The part of `DecodeRuneInString` that follows the lookup of the first byte in `first`:
`sz` is the size the first byte announces, `lo` and `hi` bound the second byte. -/
def decodeTail (s0 : Fin 256) (sz lo hi : Nat) (t0 : GoString) : Nat × Nat :=
  if t0.length + 1 < sz then (RuneError, 1)
  else
    match t0 with
    | [] => (RuneError, 1)
    | s1 :: t1 =>
      if s1.val < lo ∨ hi < s1.val then (RuneError, 1)
      else if sz ≤ 2 then (s0.val % 32 * 64 + s1.val % 64, 2)
      else
        match t1 with
        | [] => (RuneError, 1)
        | s2 :: t2 =>
          if s2.val < 0x80 ∨ 0xBF < s2.val then (RuneError, 1)
          else if sz ≤ 3 then (s0.val % 16 * 4096 + s1.val % 64 * 64 + s2.val % 64, 3)
          else
            match t2 with
            | [] => (RuneError, 1)
            | s3 :: _ =>
              if s3.val < 0x80 ∨ 0xBF < s3.val then (RuneError, 1)
              else (s0.val % 8 * 262144 + s1.val % 64 * 4096 + s2.val % 64 * 64
                      + s3.val % 64, 4)

/-! ## Reflection -/

/-- The kinds of `reflect.Kind`. -/
inductive Kind where
  | Invalid | Bool | Int | Int8 | Int16 | Int32 | Int64 | Uint | Uint8 | Uint16 | Uint32
  | Uint64 | Uintptr | Float32 | Float64 | Complex64 | Complex128 | Array | Chan | Func
  | Interface | Map | Ptr | Slice | String | Struct | UnsafePointer
  deriving DecidableEq

/-- A method of a type as `reflect.Type.Method` reports it: its name and the rendering
(`String()`) of its function type. -/
structure Method where
  Name : GoString
  Typ : GoString
  deriving DecidableEq

/-- A field of a record type as `reflect.Type.Field` reports it: its name and the rendering
(`String()`) of its static type. -/
structure StructField where
  Name : GoString
  Typ : GoString
  deriving DecidableEq

/-- A `reflect.Type`, as far as meta.go looks into it: the rendering `String()` of the type,
its methods in the order of `Method(0)`, `Method(1)`, ..., and
* `ptr`: for a pointer type (kind `Ptr`) the element type;
* `self`: a pointer type (kind `Ptr`) that is its own element type, as `P` in `type P *P`; it
  stands for every pointer type from which the steps of `Elem()` never leave the pointer types;
* `struct`: for a record type (kind `Struct`) the fields in declaration order;
* `other`: for any other type its kind, which is neither `Ptr` nor `Struct`. -/
inductive GoType where
  | ptr (str : GoString) (methods : List Method) (elem : GoType)
  | self (str : GoString) (methods : List Method)
  | struct (str : GoString) (methods : List Method) (fields : List StructField)
  | other (kind : Kind) (str : GoString) (methods : List Method)
  deriving DecidableEq

/-- The method `reflect.Type.Kind`. -/
def GoType.Kind : GoType → Kind
  | .ptr _ _ _ => .Ptr
  | .self _ _ => .Ptr
  | .struct _ _ _ => .Struct
  | .other k _ _ => k

/-- The method `reflect.Type.String`, which is also the rendering of a type under `%v`. -/
def GoType.String : GoType → GoString
  | .ptr s _ _ => s
  | .self s _ => s
  | .struct s _ _ => s
  | .other _ s _ => s

/-- The methods `Method(0)`, ..., `Method(NumMethod()-1)` of a type. -/
def GoType.methods : GoType → List Method
  | .ptr _ ms _ => ms
  | .self _ ms => ms
  | .struct _ ms _ => ms
  | .other _ _ ms => ms

/-- The loop `for t.Kind() == reflect.Ptr { t = t.Elem() }`, run for at most `fuel` steps of
`Elem()`: the type at which the loop ends, or `none` when the fuel runs out before it ends.
On a type that is its own element type the loop never ends. -/
def stripPtr : Nat → GoType → Option GoType
  | _, .struct s ms fs => some (.struct s ms fs)
  | _, .other k s ms => some (.other k s ms)
  | 0, _ => none
  | fuel + 1, .ptr _ _ e => stripPtr fuel e
  | fuel + 1, .self s ms => stripPtr fuel (.self s ms)

/-- A Go value of a concrete (non-interface) type, held by a map element or an instance
variable, as reflection and `fmt` see it:
* `typ`: its dynamic type;
* `fmtValue`: the text that `fmt` writes under `%v` for the `reflect.Value` of the map element
  that holds the value (the element itself, or the interface around the value), which is what
  `Doc` passes to `fmt`; for most values this is the rendering of the value itself, for a
  pointer to a struct held in an interface it is an address;
* `str`: the result of `reflect.Value.String`, the contents of the value when its kind is
  `String`. -/
structure Dyn where
  typ : GoType
  fmtValue : GoString
  str : GoString
  deriving DecidableEq

/-- A key of a map, as an element of `reflect.Value.MapKeys`:
* `Kind`: its kind, which is `Interface` for a map whose key type is an interface type;
* `String`: the result of `k.String()`, the contents of a key of kind `String` and a text such
  as `<int Value>` for a key of another kind;
* `fmtV`: the text that `fmt` writes for the key under `%v`: the contents for a key of type
  `string`, the result of the method for a key type with a `String` method, `7` for the
  integer 7.

Two keys of a map can agree in all three, as the keys `1` and `"1"` of a map whose key type is
an interface type; two keys of kind `String` differ in their contents. -/
structure MapKey where
  Kind : Kind
  String : GoString
  fmtV : GoString
  deriving DecidableEq

/-- A `reflect.Value` that `MapIndex` returns for a key of the map: a value of kind `Interface`
(holding a dynamic value or nil) when the element type of the map is an interface type, and a
value of a concrete type otherwise. -/
inductive Value where
  | iface (e : Option Dyn)
  | conc (d : Dyn)
  deriving DecidableEq

/-- A value of kind `Map`, with keys of any type.  Its element type is either an interface
type, and then each entry holds a dynamic value or nil, or a concrete type.  The entries are
listed in iteration order. -/
inductive ReflectMap where
  | ifaceElem (entries : List (MapKey × Option Dyn))
  | concElem (entries : List (MapKey × Dyn))

/-- The method `reflect.Value.MapKeys`. -/
def ReflectMap.MapKeys : ReflectMap → List MapKey
  | .ifaceElem es => es.map Prod.fst
  | .concElem es => es.map Prod.fst

/-- The keys `k` of `MapKeys()`, in order, each with the Value `MapIndex(k)`: what a loop
`for _, k := range v.MapKeys() { ev := v.MapIndex(k); ... }` goes through. -/
def ReflectMap.entries : ReflectMap → List (MapKey × Value)
  | .ifaceElem es => es.map (fun e => (e.1, .iface e.2))
  | .concElem es => es.map (fun e => (e.1, .conc e.2))

/-- A map value with keys of type `string` (a Module).  Its element type is either an interface
type, and then each entry holds a dynamic value or nil, or a concrete type.  The entries are
listed in iteration order; the keys of a map are distinct. -/
inductive GoMap where
  | ifaceElem (entries : List (GoString × Option Dyn))
  | concElem (entries : List (GoString × Dyn))

/-- The keys of a map with keys of type `string`, each given by its contents. -/
def GoMap.MapKeys : GoMap → List GoString
  | .ifaceElem es => es.map Prod.fst
  | .concElem es => es.map Prod.fst

/-- A key of type `string` with the contents `s`: its kind is `String`, and both `k.String()`
and its rendering under `%v` are `s`. -/
def stringKey (s : GoString) : MapKey := ⟨.String, s, s⟩

/-- A map with keys of type `string` as a value of kind `Map`. -/
def GoMap.reflect : GoMap → ReflectMap
  | .ifaceElem es => .ifaceElem (es.map (fun e => (stringKey e.1, e.2)))
  | .concElem es => .concElem (es.map (fun e => (stringKey e.1, e.2)))

/-- The text that `fmt` writes under `%v` for the `reflect.Value` of a map element: `<nil>` for
an interface that holds nil. -/
def Value.fmtV : Value → GoString
  | .iface none => lit "<nil>"
  | .iface (some d) => d.fmtValue
  | .conc d => d.fmtValue

/-- Modelled from the spec: a member function of a class (a "callable"), an element of the table
`Fns` of `exec.Class`; the declaration, in package `qlang.io/exec.v2`, is not among the sources.
`fmtT` is the rendering of the function under `%T`, its dynamic type. -/
structure Function where
  fmtT : GoString

/-- Modelled from the spec: the type `exec.Class` of package `qlang.io/exec.v2`, whose declaration
is not among the sources; a Class is a "mapping from function name to callable".  `Fns` is the
function table, listed in iteration order (a nil map has no entries). -/
structure Class where
  Fns : List (GoString × Function)

/-- Modelled from the spec: the type `exec.Object` of package `qlang.io/exec.v2`, whose
declaration is not among the sources; an Object is "a reference to exactly one owning Class plus
its own mapping from variable name to current value".  `Cls` is the owning class (a pointer,
which may be nil); the instance variables hold nil or a dynamic value and are listed in
iteration order. -/
structure Object where
  Cls : Option Class
  vars : List (GoString × Option Dyn)

/-- Modelled from the spec: the method `Vars` of `exec.Object`, the "instance-variable
accessor". -/
def Object.Vars (e : Object) : List (GoString × Option Dyn) := e.vars

/-- The rendering of an `interface{}` value under `%T`. -/
def fmtT : Option Dyn → GoString
  | none => lit "<nil>"
  | some d => d.typ.String

/-- A value passed as `interface{}` to `Dir`, `Doc` and `findPackageName`:
* `nil`: the nil interface;
* `mapOf m`: a value of kind `Map`;
* `cls e`: a `*exec.Class`, where `none` is the nil pointer;
* `obj e`: a `*exec.Object`, where `none` is the nil pointer;
* `host t`: any other value, of type `t` (whose kind is not `Map`). -/
inductive Iface where
  | nil
  | mapOf (m : ReflectMap)
  | cls (e : Option Class)
  | obj (e : Option Object)
  | host (t : GoType)

/-- A Module: a map with keys of type `string`, passed as `interface{}`. -/
def Iface.map (m : GoMap) : Iface := .mapOf m.reflect

/-- The outcome of a call: it returns a value, it panics, or the fuel runs out in the loop over
the pointer levels of a type.  A call for which the fuel runs out however much there is does
not return. -/
inductive Outcome (α : Type) where
  | returns (a : α)
  | panics
  | outOfFuel
  deriving DecidableEq

/-! ## The functions of meta.go -/

/-- The function `ExporStructField` of meta.go, whose loop runs for at most `fuel` steps: the
pair of list and error that it returns, or `none` when the fuel runs out. -/
def ExporStructField (upper : Nat → Bool) (fuel : Nat) (t : GoType) :
    Option (Except String (List GoString)) :=
  match stripPtr fuel t with
  | none => none
  | some (.struct _ _ fields) =>
    some (.ok ((fields.filter (fun f => IsExported upper f.Name)).map (fun f => f.Name)))
  | some _ => some (.error "type is not struct")

/-- The function `Dir` of meta.go. -/
def Dir (upper : Nat → Bool) (fuel : Nat) (i : Iface) : Outcome (List GoString) :=
  match i with
  | .mapOf m => .returns (m.MapKeys.map (fun k => k.String))
  | .cls none => .panics
  | .cls (some e) => .returns (e.Fns.map (fun kv => kv.1))
  | .obj none => .panics
  | .obj (some e) =>
    match e.Cls with
    | none => .panics
    | some c => .returns (c.Fns.map (fun kv => kv.1) ++ e.Vars.map (fun kv => kv.1))
  | .nil => .panics
  | .host t =>
    match ExporStructField upper fuel t with
    | none => .outOfFuel
    | some r =>
      let list :=
        match r with
        | .ok field => field
        | .error _ => []
      .returns (list ++ (t.methods.filter (fun m => IsExported upper m.Name)).map (fun m => m.Name))

/-- The loop of `findPackageName` over the keys of the map, each with its Value. -/
def findPackageNameLoop : List (MapKey × Value) → GoString × Bool
  | [] => ([], false)
  | (k, ev) :: es =>
    if k.Kind = .String ∧ k.String = lit "_name" then
      match ev with
      | .iface (some rv) =>
        if rv.typ.Kind = .String then (rv.str, true) else findPackageNameLoop es
      | _ => findPackageNameLoop es
    else findPackageNameLoop es

/-- The function `findPackageName` of meta.go. -/
def findPackageName (i : Iface) : GoString × Bool :=
  match i with
  | .mapOf m => findPackageNameLoop m.entries
  | _ => ([], false)

/-- The loop of `Doc` over the keys of a map with a package name, each with its Value; `buf` is
the buffer and `none` a panic.  The call `rv.Type()` panics when the entry holds nil, for `rv`
is then the zero Value. -/
def docPackageLoop : GoString → List (MapKey × Value) → Option GoString
  | buf, [] => some buf
  | buf, (k, ev) :: es =>
    if HasPrefix k.String (lit "_") then docPackageLoop buf es
    else
      match ev with
      | .iface (some rv) =>
        docPackageLoop (buf ++ (lit "\n" ++ k.fmtV ++ lit "\t" ++ rv.typ.String ++ lit " ")) es
      | .iface none => none
      | .conc _ => docPackageLoop buf es

/-- The function `Doc` of meta.go. -/
def Doc (upper : Nat → Bool) (fuel : Nat) (i : Iface) : Outcome GoString :=
  match i with
  | .mapOf m =>
    if (findPackageName i).2 then
      match docPackageLoop (lit "package " ++ (findPackageName i).1) m.entries with
      | some buf => .returns buf
      | none => .panics
    else
      .returns (m.entries.foldl
        (fun buf e => buf ++ (lit "\n" ++ e.1.fmtV ++ lit "\t" ++ e.2.fmtV)) [])
  | .cls none => .panics
  | .cls (some e) =>
    .returns (e.Fns.foldl (fun buf kv => buf ++ (lit "\n" ++ kv.1 ++ lit "\t" ++ kv.2.fmtT))
      (lit "*exec.Class"))
  | .obj none => .panics
  | .obj (some e) =>
    match e.Cls with
    | none => .panics
    | some c =>
      let buf := c.Fns.foldl (fun buf kv => buf ++ (lit "\n" ++ kv.1 ++ lit "\t" ++ kv.2.fmtT))
        (lit "*exec.Object")
      .returns (e.Vars.foldl (fun buf kv => buf ++ (lit "\n" ++ kv.1 ++ lit "\t" ++ fmtT kv.2)) buf)
  | .nil => .panics
  | .host t =>
    let buf := t.String
    match stripPtr fuel t with
    | none => .outOfFuel
    | some r =>
      let buf :=
        match r with
        | .struct _ _ fields =>
          fields.foldl (fun buf field =>
            if IsExported upper field.Name then
              buf ++ (lit "\n" ++ field.Name ++ lit "\t" ++ field.Typ)
            else buf) buf
        | _ => buf
      .returns (t.methods.foldl (fun buf m =>
        if IsExported upper m.Name then buf ++ (lit "\n" ++ m.Name ++ lit "\t" ++ m.Typ)
        else buf) buf)

/-- The map assignment `table[k] = v`: the value under `k` is replaced when `k` is a key of the
map, and a new entry is made otherwise. -/
def mapAssign (table : List (GoString × Option Dyn)) (k : GoString) (v : Option Dyn) :
    List (GoString × Option Dyn) :=
  if k ∈ table.map Prod.fst then table.map (fun kv => if kv.1 = k then (k, v) else kv)
  else table ++ [(k, v)]

/-- The function `FnList` of meta.go.  The parameter `Fntable` is the global registry
`qlang.Fntable`, a map from names to callables (of type `interface{}`) whose entries are listed
in iteration order; its declaration is not among the sources. -/
def FnList (Fntable : List (GoString × Option Dyn)) : List GoString :=
  (Fntable.filter (fun kv => !HasPrefix kv.1 (lit "$"))).map (fun kv => kv.1)

/-- The function `FnTable` of meta.go, over the registry `qlang.Fntable`. -/
def FnTable (Fntable : List (GoString × Option Dyn)) : List (GoString × Option Dyn) :=
  Fntable.foldl
    (fun table kv => if !HasPrefix kv.1 (lit "$") then mapAssign table kv.1 kv.2 else table) []

/-! ## Notions used in the statements -/

/-- The newline byte. -/
def nl : Fin 256 := 10

/-- The tab byte. -/
def tab : Fin 256 := 9

/-- The lines of a text: the pieces between its newline bytes. -/
def lines : GoString → List GoString
  | [] => [[]]
  | c :: cs =>
    if c = nl then [] :: lines cs
    else
      match lines cs with
      | [] => [[c]]
      | l :: ls => (c :: l) :: ls

/-- The first tab-separated token of a line. -/
def firstToken (line : GoString) : GoString := line.takeWhile (fun c => decide (c ≠ tab))

/-- The type `r` is reached from the type `t` through zero or more pointer levels. -/
inductive PointsTo : GoType → GoType → Prop where
  | here (t : GoType) : PointsTo t t
  | step (str : GoString) (methods : List Method) (elem r : GoType) :
      PointsTo elem r → PointsTo (.ptr str methods elem) r

/-- The string `s` is a key of the map `m`. -/
def GoMap.HasKey : GoMap → GoString → Prop
  | .ifaceElem es, s => ∃ v, (s, v) ∈ es
  | .concElem es, s => ∃ v, (s, v) ∈ es

/-- The rendering of the dynamic type of the value of a map element (empty for nil). -/
def Value.typeString : Value → GoString
  | .iface (some d) => d.typ.String
  | .conc d => d.typ.String
  | .iface none => []

/-- The fields of a record type in declaration order; a type of another kind has none. -/
def recordFields : GoType → List StructField
  | .struct _ _ fields => fields
  | _ => []

/-- A function value, the example of a map entry. -/
def exampleFunc : Dyn :=
  ⟨.other .Func (lit "func(int, int) int") [], lit "0x4a1b20", []⟩

/-- A string value, the example of a map entry. -/
def exampleString (s : String) : Dyn :=
  ⟨.other .String (lit "string") [], lit s, lit s⟩

/-- An integer value, the example of a map entry. -/
def exampleInt : Dyn :=
  ⟨.other .Int (lit "int") [], lit "1", lit "<int Value>"⟩

/-- The module of the example: the map `{"_name": "math", "Add": addFn}`. -/
def exampleModule : GoMap :=
  .ifaceElem [(lit "_name", some (exampleString "math")), (lit "Add", some exampleFunc)]

/-- The type of the example of a host value: a pointer to a record with the fields `Name` and
`secret`, with a method `Greet`. -/
def examplePerson : GoType :=
  .ptr (lit "*main.Person") [⟨lit "Greet", lit "func(*main.Person) string"⟩]
    (.struct (lit "main.Person") [] [⟨lit "Name", lit "string"⟩, ⟨lit "secret", lit "int"⟩])

/-- The type `P` of the declaration `type P *P`: a pointer type that is its own element
type. -/
def exampleSelfPointer : GoType := .self (lit "main.P") []

/-- A map of type `map[string]string` with the entry `"_name": "math"`. -/
def exampleStringMap : GoMap :=
  .concElem [(lit "_name", exampleString "math")]

/-- A map of type `map[interface{}]interface{}` with the entry `"_name": "math"`: the kind of
its key is `Interface`. -/
def exampleInterfaceKey : ReflectMap :=
  .ifaceElem [(⟨.Interface, lit "<interface \x7b\x7d Value>", lit "_name"⟩,
    some (exampleString "math"))]

/-- The map `map[int]int{7: 1}`. -/
def exampleIntKey : ReflectMap :=
  .concElem [(⟨.Int, lit "<int Value>", lit "7"⟩, exampleInt)]

/-- The map `map[K]int{"a": 1}` for a key type `type K string` with the method
`func (K) String() string { return "_k" }`: the contents of the key are `a`, and `%v` writes it
as `_k`. -/
def exampleStringerKey : ReflectMap :=
  .concElem [(⟨.String, lit "a", lit "_k"⟩, exampleInt)]

/-- The map `map[K]interface{}{"_name": "math", "a": 1}` for the same key type `K`. -/
def exampleStringerNamed : ReflectMap :=
  .ifaceElem [(⟨.String, lit "_name", lit "_k"⟩, some (exampleString "math")),
    (⟨.String, lit "a", lit "_k"⟩, some exampleInt)]

/-- A module whose package name has a newline in it: the map `{"_name": "a\n_b"}`. -/
def exampleNewlineName : GoMap :=
  .ifaceElem [(lit "_name", some (exampleString "a\n_b"))]

/-- A module with a package name and an entry that holds nil. -/
def exampleNilEntry : GoMap :=
  .ifaceElem [(lit "_name", some (exampleString "math")), (lit "X", none)]

/-- A module with a package name and a key that has a newline in it. -/
def exampleNewlineKey : GoMap :=
  .ifaceElem [(lit "_name", some (exampleString "math")), (lit "a\n_b", some exampleInt)]

/-- A module without a package name, with a key that has a tab in it. -/
def exampleTabKey : GoMap :=
  .ifaceElem [(lit "a\tb", some exampleInt)]

/-- A module without a package name: the map `{"x": 1}`. -/
def exampleUnnamed : GoMap :=
  .ifaceElem [(lit "x", some exampleInt)]

/-- A module without a package name: the map `{"x": 1, "y": "hi"}`. -/
def exampleTwoKeys : GoMap :=
  .ifaceElem [(lit "x", some exampleInt), (lit "y", some (exampleString "hi"))]

/-- A module without a package name, with a string value of two lines. -/
def exampleTwoLineValue : GoMap :=
  .ifaceElem [(lit "x", some (exampleString "a\nb"))]

/-- The type `int`, the example of a host value that is not a record. -/
def exampleIntType : GoType := .other .Int (lit "int") []

/-- A registry of global functions, the example of `qlang.Fntable`: the function `println` and
the internal function `$neg`. -/
def exampleRegistry : List (GoString × Option Dyn) :=
  [(lit "println", some exampleFunc), (lit "$neg", some exampleFunc)]

/-! ## UTF-8 decoding -/

@[simp] theorem byte_val (n : Nat) : (byte n).val = n % 256 := rfl

theorem byte_eq (b : Fin 256) (n : Nat) (h : n = b.val) : byte n = b := by
  apply Fin.ext
  have := b.isLt
  simp only [byte_val]
  omega

theorem first_ascii (b : Nat) (h : b < 0x80) : first b = 0xF0 := by
  unfold first
  rw [if_pos h]

theorem first_xx (b : Nat) (h : (0x80 ≤ b ∧ b < 0xC2) ∨ 0xF5 ≤ b) : first b = 0xF1 := by
  unfold first
  rcases h with h | h <;> repeat (first | rw [if_pos (by omega)] | rw [if_neg (by omega)])

theorem first_s1 (b : Nat) (h : 0xC2 ≤ b ∧ b < 0xE0) : first b = 0x02 := by
  unfold first
  repeat (first | rw [if_pos (by omega)] | rw [if_neg (by omega)])

theorem first_s2 (b : Nat) (h : b = 0xE0) : first b = 0x13 := by
  subst h; rfl

theorem first_s3 (b : Nat) (h : (0xE1 ≤ b ∧ b < 0xED) ∨ (0xEE ≤ b ∧ b < 0xF0)) :
    first b = 0x03 := by
  unfold first
  rcases h with h | h <;> repeat (first | rw [if_pos (by omega)] | rw [if_neg (by omega)])

theorem first_s4 (b : Nat) (h : b = 0xED) : first b = 0x23 := by
  subst h; rfl

theorem first_s5 (b : Nat) (h : b = 0xF0) : first b = 0x34 := by
  subst h; rfl

theorem first_s6 (b : Nat) (h : 0xF1 ≤ b ∧ b < 0xF4) : first b = 0x04 := by
  unfold first
  repeat (first | rw [if_pos (by omega)] | rw [if_neg (by omega)])

theorem first_s7 (b : Nat) (h : b = 0xF4) : first b = 0x44 := by
  subst h; rfl

/-- Decoding a string that starts with the encoding of a code point gives that code point. -/
theorem decode_encode (c : Nat) (hc : ValidRune c) (rest : GoString) :
    (DecodeRuneInString (EncodeRune c ++ rest)).1 = c := by
  unfold ValidRune at hc
  unfold EncodeRune
  by_cases h1 : c ≤ 0x7F
  · simp only [h1, if_true, List.cons_append, List.nil_append, DecodeRuneInString, byte_val]
    rw [first_ascii _ (by omega)]
    simp; omega
  · by_cases h2 : c ≤ 0x7FF
    · simp only [h1, h2, if_true, if_false, List.cons_append, List.nil_append,
        DecodeRuneInString, byte_val]
      rw [first_s1 _ (by omega)]
      simp only [acceptRanges, List.length_cons, Nat.reduceDiv, Nat.reduceMod]
      rw [if_neg (by omega), if_neg (by omega), if_neg (by omega), if_pos (by omega)]
      show _ = c
      omega
    · have h4 : ¬ (c > 0x10FFFF ∨ (0xD800 ≤ c ∧ c ≤ 0xDFFF)) := by omega
      by_cases h3 : c ≤ 0xFFFF
      · simp only [h1, h2, h3, h4, if_true, if_false, List.cons_append, List.nil_append,
          DecodeRuneInString, byte_val]
        rcases (by omega : c / 4096 = 0 ∨ (1 ≤ c / 4096 ∧ c / 4096 ≤ 12) ∨ c / 4096 = 13
          ∨ (14 ≤ c / 4096 ∧ c / 4096 ≤ 15)) with h | h | h | h
        · rw [first_s2 _ (by omega)]
          simp only [acceptRanges, List.length_cons, Nat.reduceDiv, Nat.reduceMod]
          rw [if_neg (by omega), if_neg (by omega), if_neg (by omega), if_neg (by omega),
            if_neg (by omega), if_pos (by omega)]
          show _ = c
          omega
        · rw [first_s3 _ (by omega)]
          simp only [acceptRanges, List.length_cons, Nat.reduceDiv, Nat.reduceMod]
          rw [if_neg (by omega), if_neg (by omega), if_neg (by omega), if_neg (by omega),
            if_neg (by omega), if_pos (by omega)]
          show _ = c
          omega
        · rw [first_s4 _ (by omega)]
          simp only [acceptRanges, List.length_cons, Nat.reduceDiv, Nat.reduceMod]
          rw [if_neg (by omega), if_neg (by omega), if_neg (by omega), if_neg (by omega),
            if_neg (by omega), if_pos (by omega)]
          show _ = c
          omega
        · rw [first_s3 _ (by omega)]
          simp only [acceptRanges, List.length_cons, Nat.reduceDiv, Nat.reduceMod]
          rw [if_neg (by omega), if_neg (by omega), if_neg (by omega), if_neg (by omega),
            if_neg (by omega), if_pos (by omega)]
          show _ = c
          omega
      · simp only [h1, h2, h3, h4, if_true, if_false, List.cons_append, List.nil_append,
          DecodeRuneInString, byte_val]
        rcases (by omega : c / 262144 = 0 ∨ (1 ≤ c / 262144 ∧ c / 262144 ≤ 3)
          ∨ c / 262144 = 4) with h | h | h
        · rw [first_s5 _ (by omega)]
          simp only [acceptRanges, List.length_cons, Nat.reduceDiv, Nat.reduceMod]
          rw [if_neg (by omega), if_neg (by omega), if_neg (by omega), if_neg (by omega),
            if_neg (by omega), if_neg (by omega), if_neg (by omega)]
          show _ = c
          omega
        · rw [first_s6 _ (by omega)]
          simp only [acceptRanges, List.length_cons, Nat.reduceDiv, Nat.reduceMod]
          rw [if_neg (by omega), if_neg (by omega), if_neg (by omega), if_neg (by omega),
            if_neg (by omega), if_neg (by omega), if_neg (by omega)]
          show _ = c
          omega
        · rw [first_s7 _ (by omega)]
          simp only [acceptRanges, List.length_cons, Nat.reduceDiv, Nat.reduceMod]
          rw [if_neg (by omega), if_neg (by omega), if_neg (by omega), if_neg (by omega),
            if_neg (by omega), if_neg (by omega), if_neg (by omega)]
          show _ = c
          omega

theorem encode_one (s0 : Fin 256) (h0 : s0.val < 0x80) :
    ValidRune s0.val ∧ EncodeRune s0.val = [s0] := by
  refine ⟨Or.inl (by omega), ?_⟩
  unfold EncodeRune
  rw [if_pos (by omega), byte_eq s0 _ rfl]

theorem encode_two (s0 s1 : Fin 256) (h0 : 0xC2 ≤ s0.val ∧ s0.val < 0xE0)
    (h1 : 0x80 ≤ s1.val ∧ s1.val ≤ 0xBF) :
    ValidRune (s0.val % 32 * 64 + s1.val % 64)
      ∧ EncodeRune (s0.val % 32 * 64 + s1.val % 64) = [s0, s1] := by
  refine ⟨Or.inl (by omega), ?_⟩
  unfold EncodeRune
  rw [if_neg (by omega), if_pos (by omega), byte_eq s0 _ (by omega), byte_eq s1 _ (by omega)]

theorem encode_three (s0 s1 s2 : Fin 256) (h0 : 0xE0 ≤ s0.val ∧ s0.val < 0xF0)
    (h1 : 0x80 ≤ s1.val ∧ s1.val ≤ 0xBF) (hlo : s0.val = 0xE0 → 0xA0 ≤ s1.val)
    (hhi : s0.val = 0xED → s1.val ≤ 0x9F) (h2 : 0x80 ≤ s2.val ∧ s2.val ≤ 0xBF) :
    ValidRune (s0.val % 16 * 4096 + s1.val % 64 * 64 + s2.val % 64)
      ∧ EncodeRune (s0.val % 16 * 4096 + s1.val % 64 * 64 + s2.val % 64) = [s0, s1, s2] := by
  have hv : ValidRune (s0.val % 16 * 4096 + s1.val % 64 * 64 + s2.val % 64) := by
    unfold ValidRune
    omega
  refine ⟨hv, ?_⟩
  unfold ValidRune at hv
  unfold EncodeRune
  rw [if_neg (by omega), if_neg (by omega), if_neg (by omega), if_pos (by omega),
    byte_eq s0 _ (by omega), byte_eq s1 _ (by omega), byte_eq s2 _ (by omega)]

theorem encode_four (s0 s1 s2 s3 : Fin 256) (h0 : 0xF0 ≤ s0.val ∧ s0.val ≤ 0xF4)
    (h1 : 0x80 ≤ s1.val ∧ s1.val ≤ 0xBF) (hlo : s0.val = 0xF0 → 0x90 ≤ s1.val)
    (hhi : s0.val = 0xF4 → s1.val ≤ 0x8F) (h2 : 0x80 ≤ s2.val ∧ s2.val ≤ 0xBF)
    (h3 : 0x80 ≤ s3.val ∧ s3.val ≤ 0xBF) :
    ValidRune (s0.val % 8 * 262144 + s1.val % 64 * 4096 + s2.val % 64 * 64 + s3.val % 64)
      ∧ EncodeRune (s0.val % 8 * 262144 + s1.val % 64 * 4096 + s2.val % 64 * 64 + s3.val % 64)
          = [s0, s1, s2, s3] := by
  have hv : ValidRune (s0.val % 8 * 262144 + s1.val % 64 * 4096 + s2.val % 64 * 64
      + s3.val % 64) := by
    unfold ValidRune
    omega
  refine ⟨hv, ?_⟩
  unfold ValidRune at hv
  unfold EncodeRune
  rw [if_neg (by omega), if_neg (by omega), if_neg (by omega), if_neg (by omega),
    byte_eq s0 _ (by omega), byte_eq s1 _ (by omega), byte_eq s2 _ (by omega),
    byte_eq s3 _ (by omega)]

theorem decode_cons (s0 : Fin 256) (t0 : GoString) :
    DecodeRuneInString (s0 :: t0) =
      if first s0.val ≥ 0xF0 then (if first s0.val = 0xF0 then s0.val else RuneError, 1)
      else decodeTail s0 (first s0.val % 8) (acceptRanges (first s0.val / 16)).1
        (acceptRanges (first s0.val / 16)).2 t0 := by
  rfl

theorem decodeTail_two (s0 : Fin 256) (t0 : GoString) (h0 : 0xC2 ≤ s0.val ∧ s0.val < 0xE0) :
    (decodeTail s0 2 0x80 0xBF t0).1 = RuneError
      ∨ FirstCodePoint (s0 :: t0) (decodeTail s0 2 0x80 0xBF t0).1 := by
  unfold decodeTail
  match t0 with
  | [] => left; rfl
  | s1 :: t1 =>
    rw [if_neg (by simp)]
    dsimp only
    by_cases h1 : s1.val < 0x80 ∨ 0xBF < s1.val
    · rw [if_pos h1]; left; rfl
    · rw [if_neg h1, if_pos (by omega)]
      right
      obtain ⟨hv, he⟩ := encode_two s0 s1 h0 (by omega)
      exact ⟨hv, t1, by rw [he]; rfl⟩

theorem decodeTail_three (s0 : Fin 256) (lo hi : Nat) (t0 : GoString)
    (h0 : 0xE0 ≤ s0.val ∧ s0.val < 0xF0) (hb : 0x80 ≤ lo ∧ hi ≤ 0xBF)
    (hlo : s0.val = 0xE0 → 0xA0 ≤ lo) (hhi : s0.val = 0xED → hi ≤ 0x9F) :
    (decodeTail s0 3 lo hi t0).1 = RuneError
      ∨ FirstCodePoint (s0 :: t0) (decodeTail s0 3 lo hi t0).1 := by
  unfold decodeTail
  match t0 with
  | [] => left; rfl
  | [_] => left; rfl
  | s1 :: s2 :: t2 =>
    rw [if_neg (by simp)]
    dsimp only
    by_cases h1 : s1.val < lo ∨ hi < s1.val
    · rw [if_pos h1]; left; rfl
    · rw [if_neg h1, if_neg (by omega)]
      by_cases h2 : s2.val < 0x80 ∨ 0xBF < s2.val
      · rw [if_pos h2]; left; rfl
      · rw [if_neg h2, if_pos (by omega)]
        right
        obtain ⟨hv, he⟩ := encode_three s0 s1 s2 h0 (by omega) (by omega) (by omega) (by omega)
        exact ⟨hv, t2, by rw [he]; rfl⟩

theorem decodeTail_four (s0 : Fin 256) (lo hi : Nat) (t0 : GoString)
    (h0 : 0xF0 ≤ s0.val ∧ s0.val ≤ 0xF4) (hb : 0x80 ≤ lo ∧ hi ≤ 0xBF)
    (hlo : s0.val = 0xF0 → 0x90 ≤ lo) (hhi : s0.val = 0xF4 → hi ≤ 0x8F) :
    (decodeTail s0 4 lo hi t0).1 = RuneError
      ∨ FirstCodePoint (s0 :: t0) (decodeTail s0 4 lo hi t0).1 := by
  unfold decodeTail
  match t0 with
  | [] => left; rfl
  | [_] => left; rfl
  | [_, _] => left; rfl
  | s1 :: s2 :: s3 :: t3 =>
    rw [if_neg (by simp)]
    dsimp only
    by_cases h1 : s1.val < lo ∨ hi < s1.val
    · rw [if_pos h1]; left; rfl
    · rw [if_neg h1, if_neg (by omega)]
      by_cases h2 : s2.val < 0x80 ∨ 0xBF < s2.val
      · rw [if_pos h2]; left; rfl
      · rw [if_neg h2, if_neg (by omega)]
        by_cases h3 : s3.val < 0x80 ∨ 0xBF < s3.val
        · rw [if_pos h3]; left; rfl
        · rw [if_neg h3]
          right
          obtain ⟨hv, he⟩ := encode_four s0 s1 s2 s3 h0 (by omega) (by omega) (by omega)
            (by omega) (by omega)
          exact ⟨hv, t3, by rw [he]; rfl⟩

/-- The rune that `DecodeRuneInString` returns is `RuneError`, or the string starts with the
encoding of that rune, a valid code point. -/
theorem decode_sound (s : GoString) :
    (DecodeRuneInString s).1 = RuneError ∨ FirstCodePoint s (DecodeRuneInString s).1 := by
  match s with
  | [] => left; rfl
  | s0 :: t0 =>
    have hlt := s0.isLt
    rw [decode_cons]
    rcases (by omega : s0.val < 0x80 ∨ ((0x80 ≤ s0.val ∧ s0.val < 0xC2) ∨ 0xF5 ≤ s0.val)
      ∨ (0xC2 ≤ s0.val ∧ s0.val < 0xE0) ∨ s0.val = 0xE0
      ∨ ((0xE1 ≤ s0.val ∧ s0.val < 0xED) ∨ (0xEE ≤ s0.val ∧ s0.val < 0xF0)) ∨ s0.val = 0xED
      ∨ s0.val = 0xF0 ∨ (0xF1 ≤ s0.val ∧ s0.val < 0xF4) ∨ s0.val = 0xF4)
      with h | h | h | h | h | h | h | h | h
    · rw [first_ascii _ h, if_pos (by decide), if_pos rfl]
      right
      obtain ⟨hv, he⟩ := encode_one s0 h
      exact ⟨hv, t0, by rw [he]; rfl⟩
    · rw [first_xx _ h]
      left; rfl
    · rw [first_s1 _ h]
      exact decodeTail_two s0 t0 h
    · rw [first_s2 _ h]
      exact decodeTail_three s0 0xA0 0xBF t0 (by omega) (by omega) (by omega) (by omega)
    · rw [first_s3 _ h]
      exact decodeTail_three s0 0x80 0xBF t0 (by omega) (by omega) (by omega) (by omega)
    · rw [first_s4 _ h]
      exact decodeTail_three s0 0x80 0x9F t0 (by omega) (by omega) (by omega) (by omega)
    · rw [first_s5 _ h]
      exact decodeTail_four s0 0x90 0xBF t0 (by omega) (by omega) (by omega) (by omega)
    · rw [first_s6 _ h]
      exact decodeTail_four s0 0x80 0xBF t0 (by omega) (by omega) (by omega) (by omega)
    · rw [first_s7 _ h]
      exact decodeTail_four s0 0x80 0x8F t0 (by omega) (by omega) (by omega) (by omega)

theorem IsExported_encode (upper : Nat → Bool) (c : Nat) (hc : ValidRune c) (rest : GoString) :
    IsExported upper (EncodeRune c ++ rest) = IsUpper upper c := by
  unfold IsExported
  simp only [decode_encode c hc rest]

theorem IsUpper_RuneError (upper : Nat → Bool) (h : upper RuneError = false) :
    IsUpper upper RuneError = false := by
  unfold IsUpper
  rw [if_neg (by decide)]
  exact h

/-! ## C1: the visibility filter -/

/-- C1. Provided the range table `unicode.Upper` does not list U+FFFD (which is not a letter),
`IsExported s` is true exactly when `s` is not empty and starts with the encoding of a code
point that is an uppercase letter; `IsExported ""` is false; and the result depends on the first
code point only, not on what follows it. -/
theorem IsExported_iff_first_upper (upper : Nat → Bool) (hErr : upper RuneError = false)
    (s : GoString) :
    (IsExported upper s = true ↔ s ≠ [] ∧ ∃ c, FirstCodePoint s c ∧ IsUpper upper c = true)
    ∧ IsExported upper [] = false
    ∧ (∀ c rest rest', ValidRune c →
        IsExported upper (EncodeRune c ++ rest) = IsExported upper (EncodeRune c ++ rest')) := by
  refine ⟨⟨?_, ?_⟩, IsUpper_RuneError upper hErr, ?_⟩
  · intro h
    have hne : s ≠ [] := by
      intro hs
      subst hs
      rw [show IsExported upper [] = IsUpper upper RuneError from rfl,
        IsUpper_RuneError upper hErr] at h
      exact Bool.false_ne_true h
    refine ⟨hne, ?_⟩
    rcases decode_sound s with hd | hd
    · unfold IsExported at h
      simp only [hd, IsUpper_RuneError upper hErr] at h
      exact absurd h Bool.false_ne_true
    · exact ⟨_, hd, h⟩
  · rintro ⟨_, c, ⟨hv, rest, hs⟩, hu⟩
    rw [hs, IsExported_encode upper c hv rest]
    exact hu
  · intro c rest rest' hv
    rw [IsExported_encode upper c hv rest, IsExported_encode upper c hv rest']

/-- A witness of C1: the name `Name`, with a range table that lists the Greek capitals. -/
theorem IsExported_iff_first_upper_witness :
    (IsExported (fun r => decide (0x391 ≤ r ∧ r ≤ 0x3A9)) (lit "Name") = true
        ↔ lit "Name" ≠ [] ∧ ∃ c, FirstCodePoint (lit "Name") c
            ∧ IsUpper (fun r => decide (0x391 ≤ r ∧ r ≤ 0x3A9)) c = true)
    ∧ IsExported (fun r => decide (0x391 ≤ r ∧ r ≤ 0x3A9)) [] = false
    ∧ (∀ c rest rest', ValidRune c →
        IsExported (fun r => decide (0x391 ≤ r ∧ r ≤ 0x3A9)) (EncodeRune c ++ rest)
          = IsExported (fun r => decide (0x391 ≤ r ∧ r ≤ 0x3A9)) (EncodeRune c ++ rest')) :=
  IsExported_iff_first_upper (fun r => decide (0x391 ≤ r ∧ r ≤ 0x3A9)) (by decide) (lit "Name")

/-! ## Dir -/

theorem MapKeys_mem (m : GoMap) (s : GoString) : s ∈ m.MapKeys ↔ m.HasKey s := by
  cases m with
  | ifaceElem es =>
    simp only [GoMap.MapKeys, GoMap.HasKey, List.mem_map, Prod.exists]
    constructor
    · rintro ⟨a, b, hab, rfl⟩
      exact ⟨b, hab⟩
    · rintro ⟨v, hv⟩
      exact ⟨s, v, hv, rfl⟩
  | concElem es =>
    simp only [GoMap.MapKeys, GoMap.HasKey, List.mem_map, Prod.exists]
    constructor
    · rintro ⟨a, b, hab, rfl⟩
      exact ⟨b, hab⟩
    · rintro ⟨v, hv⟩
      exact ⟨s, v, hv, rfl⟩

theorem mem_map_fst {β : Type} (es : List (GoString × β)) (s : GoString) :
    s ∈ es.map (fun kv => kv.1) ↔ ∃ v, (s, v) ∈ es := by
  simp only [List.mem_map, Prod.exists]
  constructor
  · rintro ⟨a, b, hab, rfl⟩
    exact ⟨b, hab⟩
  · rintro ⟨v, hv⟩
    exact ⟨s, v, hv, rfl⟩

/-- The keys of a map with keys of type `string`, as `Dir` reads them with `k.String()`. -/
theorem reflect_MapKeys_String (m : GoMap) :
    m.reflect.MapKeys.map (fun k => k.String) = m.MapKeys := by
  cases m with
  | ifaceElem es =>
    simp only [GoMap.reflect, ReflectMap.MapKeys, GoMap.MapKeys, List.map_map]
    rfl
  | concElem es =>
    simp only [GoMap.reflect, ReflectMap.MapKeys, GoMap.MapKeys, List.map_map]
    rfl

/-- The result of `Dir` on a map with keys of type `string`: the keys. -/
theorem Dir_map (upper : Nat → Bool) (fuel : Nat) (m : GoMap) :
    Dir upper fuel (.map m) = .returns m.MapKeys := by
  simp only [Iface.map, Dir, reflect_MapKeys_String]

/-- C2. For a Module `m` (a map with string keys, which are distinct), `Dir` returns a list that
holds exactly the keys of `m`, each once, whatever the spelling of a key and whatever the type
of the elements. -/
theorem Dir_module_keys (upper : Nat → Bool) (fuel : Nat) (m : GoMap)
    (hkeys : m.MapKeys.Nodup) :
    ∃ list, Dir upper fuel (.map m) = .returns list
      ∧ (∀ s, s ∈ list ↔ m.HasKey s)
      ∧ list.Nodup :=
  ⟨m.MapKeys, Dir_map upper fuel m, MapKeys_mem m, hkeys⟩

/-- A witness of C2: the module `{"_name": "math", "Add": addFn}`. -/
theorem Dir_module_keys_witness :
    ∃ list, Dir (fun _ => false) 0 (.map exampleModule) = .returns list
      ∧ (∀ s, s ∈ list ↔ exampleModule.HasKey s)
      ∧ list.Nodup :=
  Dir_module_keys (fun _ => false) 0 exampleModule (by decide)

/-- C3. For a Class `C` (whose function table has distinct keys), `Dir` returns a list that
holds exactly the keys of the function table, each once, without any filter; for the table
`{"Foo": f1, "Bar": f2}` the names are `Foo` and `Bar`. -/
theorem Dir_class_fns (upper : Nat → Bool) (fuel : Nat) (C : Class) (f1 f2 : Function)
    (hkeys : (C.Fns.map (fun kv => kv.1)).Nodup) :
    (∃ list, Dir upper fuel (.cls (some C)) = .returns list
      ∧ (∀ s, s ∈ list ↔ ∃ f, (s, f) ∈ C.Fns)
      ∧ list.Nodup)
    ∧ (∃ list, Dir upper fuel (.cls (some ⟨[(lit "Foo", f1), (lit "Bar", f2)]⟩)) = .returns list
      ∧ ∀ s, s ∈ list ↔ s = lit "Foo" ∨ s = lit "Bar") := by
  refine ⟨⟨C.Fns.map (fun kv : GoString × Function => kv.1), rfl, mem_map_fst C.Fns, hkeys⟩,
    ⟨[lit "Foo", lit "Bar"], rfl, ?_⟩⟩
  intro s
  simp

/-- A witness of C3: a class with the functions `Foo` and `bar`. -/
theorem Dir_class_fns_witness :
    (∃ list, Dir (fun _ => false) 0
        (.cls (some ⟨[(lit "Foo", ⟨lit "*exec.Function"⟩), (lit "bar", ⟨lit "*exec.Function"⟩)]⟩))
          = .returns list
      ∧ (∀ s, s ∈ list ↔ ∃ f, (s, f) ∈
          (⟨[(lit "Foo", ⟨lit "*exec.Function"⟩), (lit "bar", ⟨lit "*exec.Function"⟩)]⟩ : Class).Fns)
      ∧ list.Nodup)
    ∧ (∃ list, Dir (fun _ => false) 0
        (.cls (some ⟨[(lit "Foo", ⟨lit "f1"⟩), (lit "Bar", ⟨lit "f2"⟩)]⟩)) = .returns list
      ∧ ∀ s, s ∈ list ↔ s = lit "Foo" ∨ s = lit "Bar") :=
  Dir_class_fns (fun _ => false) 0
    ⟨[(lit "Foo", ⟨lit "*exec.Function"⟩), (lit "bar", ⟨lit "*exec.Function"⟩)]⟩
    ⟨lit "f1"⟩ ⟨lit "f2"⟩ (by decide)

/-- C4. For an Object `o` with owning Class `C`, the names in `Dir(o)` are the keys of the
function table of `C` together with the keys of the instance variables of `o`; for the class
table `{"Foo", "Bar"}` and the variables `{"x": 1}` they are `Foo`, `Bar` and `x`. -/
theorem Dir_object_union (upper : Nat → Bool) (fuel : Nat) (C : Class)
    (vars : List (GoString × Option Dyn)) (f1 f2 : Function) (one : Option Dyn) :
    (∃ list, Dir upper fuel (.obj (some ⟨some C, vars⟩)) = .returns list
      ∧ ∀ s, s ∈ list ↔ (∃ f, (s, f) ∈ C.Fns) ∨ (∃ v, (s, v) ∈ vars))
    ∧ (∃ list, Dir upper fuel (.obj (some ⟨some ⟨[(lit "Foo", f1), (lit "Bar", f2)]⟩,
          [(lit "x", one)]⟩)) = .returns list
      ∧ ∀ s, s ∈ list ↔ s = lit "Foo" ∨ s = lit "Bar" ∨ s = lit "x") := by
  refine ⟨⟨C.Fns.map (fun kv : GoString × Function => kv.1)
    ++ vars.map (fun kv : GoString × Option Dyn => kv.1), rfl, ?_⟩,
    ⟨[lit "Foo", lit "Bar", lit "x"], rfl, ?_⟩⟩
  · intro s
    rw [List.mem_append, mem_map_fst, mem_map_fst]
  · intro s
    simp

/-! ## The loop over the pointer levels of a type -/

/-- On a pointer type that is its own element type the loop does not end: the fuel runs out,
however much there is. -/
theorem stripPtr_self (fuel : Nat) (str : GoString) (ms : List Method) :
    stripPtr fuel (.self str ms) = none := by
  induction fuel with
  | zero => rfl
  | succ n ih =>
    rw [stripPtr]
    exact ih

/-- More fuel does not change the type at which the loop ends. -/
theorem stripPtr_mono (fuel : Nat) (t r : GoType) (h : stripPtr fuel t = some r) :
    stripPtr (fuel + 1) t = some r := by
  induction fuel generalizing t with
  | zero =>
    cases t with
    | ptr str ms e => simp [stripPtr] at h
    | self str ms => simp [stripPtr] at h
    | struct str ms fs => simpa [stripPtr] using h
    | other k str ms => simpa [stripPtr] using h
  | succ n ih =>
    cases t with
    | ptr str ms e =>
      rw [stripPtr] at h ⊢
      exact ih e h
    | self str ms => rw [stripPtr_self] at h; cases h
    | struct str ms fs => simpa [stripPtr] using h
    | other k str ms => simpa [stripPtr] using h

/-- When the type `t` reaches through its pointer levels a record type or a type of another
kind, the loop ends there, given fuel for the pointer levels. -/
theorem stripPtr_of_pointsTo (t r : GoType) (h : PointsTo t r)
    (hr : (∃ str ms fs, r = .struct str ms fs) ∨ (∃ k str ms, r = .other k str ms)) :
    ∃ n, ∀ fuel, n ≤ fuel → stripPtr fuel t = some r := by
  induction h with
  | here t =>
    refine ⟨0, fun fuel _ => ?_⟩
    rcases hr with ⟨str, ms, fs, rfl⟩ | ⟨k, str, ms, rfl⟩
    · cases fuel <;> rfl
    · cases fuel <;> rfl
  | step str ms e r _ ih =>
    obtain ⟨n, hn⟩ := ih hr
    refine ⟨n + 1, fun fuel hf => ?_⟩
    obtain ⟨f, rfl⟩ : ∃ f, fuel = f + 1 := ⟨fuel - 1, by omega⟩
    rw [stripPtr]
    exact hn f (by omega)

theorem mem_exported_names {α : Type} (upper : Nat → Bool) (l : List α) (name : α → GoString)
    (n : GoString) :
    n ∈ (l.filter (fun x => IsExported upper (name x))).map name
      ↔ IsExported upper n = true ∧ ∃ x ∈ l, name x = n := by
  simp only [List.mem_map, List.mem_filter]
  constructor
  · rintro ⟨x, ⟨hx, he⟩, rfl⟩
    exact ⟨he, x, hx, rfl⟩
  · rintro ⟨he, x, hx, rfl⟩
    exact ⟨x, ⟨hx, he⟩, rfl⟩

/-- The loop ends at a record type or at a type of another kind, never at a pointer type. -/
theorem stripPtr_some (fuel : Nat) (t r : GoType) (h : stripPtr fuel t = some r) :
    (∃ str ms fs, r = .struct str ms fs) ∨ (∃ k str ms, r = .other k str ms) := by
  induction fuel generalizing t with
  | zero =>
    cases t with
    | ptr str ms e => simp [stripPtr] at h
    | self str ms => simp [stripPtr] at h
    | struct str ms fs =>
      simp only [stripPtr, Option.some.injEq] at h
      exact Or.inl ⟨str, ms, fs, h.symm⟩
    | other k str ms =>
      simp only [stripPtr, Option.some.injEq] at h
      exact Or.inr ⟨k, str, ms, h.symm⟩
  | succ n ih =>
    cases t with
    | ptr str ms e =>
      rw [stripPtr] at h
      exact ih e h
    | self str ms => rw [stripPtr_self] at h; cases h
    | struct str ms fs =>
      simp only [stripPtr, Option.some.injEq] at h
      exact Or.inl ⟨str, ms, fs, h.symm⟩
    | other k str ms =>
      simp only [stripPtr, Option.some.injEq] at h
      exact Or.inr ⟨k, str, ms, h.symm⟩

/-- The result of `ExporStructField` when the loop ends at the type `r` within the fuel: the
exported fields when `r` is a record type, and the error otherwise. -/
theorem ExporStructField_of_stripPtr (upper : Nat → Bool) (fuel : Nat) (t r : GoType)
    (h : stripPtr fuel t = some r) :
    ExporStructField upper fuel t =
      match r with
      | .struct _ _ fields =>
        some (.ok ((fields.filter (fun f => IsExported upper f.Name)).map (fun f => f.Name)))
      | _ => some (.error "type is not struct") := by
  simp only [ExporStructField, h]
  cases r <;> rfl

/-- The result of `Dir` on a host value when the loop ends at the type `r` within the fuel: the
exported fields of `r`, then the exported methods of the type of the value. -/
theorem Dir_host (upper : Nat → Bool) (fuel : Nat) (t r : GoType)
    (h : stripPtr fuel t = some r) :
    Dir upper fuel (.host t) =
      .returns (((recordFields r).filter (fun f => IsExported upper f.Name)).map (fun f => f.Name)
        ++ (t.methods.filter (fun m => IsExported upper m.Name)).map (fun m => m.Name)) := by
  simp only [Dir, ExporStructField, h]
  cases r <;> rfl

/-- On a host value whose type never leaves the pointer types neither `ExporStructField` nor
`Dir` nor `Doc` returns. -/
theorem host_outOfFuel (upper : Nat → Bool) (fuel : Nat) (t : GoType)
    (h : stripPtr fuel t = none) :
    ExporStructField upper fuel t = none
      ∧ Dir upper fuel (.host t) = .outOfFuel
      ∧ Doc upper fuel (.host t) = .outOfFuel := by
  simp only [Dir, Doc, ExporStructField, h, and_self]

/-! ## The text that Doc builds -/

theorem lit_nl : lit "\n" = [nl] := rfl

theorem lit_tab : lit "\t" = [tab] := rfl

/-- An entry as `outf("\n%v\t%v", name, r)` writes it. -/
theorem entry_eq (name r : GoString) :
    lit "\n" ++ name ++ lit "\t" ++ r = nl :: (name ++ tab :: r) := by
  simp [lit_nl, lit_tab]

/-- A loop that appends one piece of text for each element. -/
theorem foldl_append_eq {α : Type} (f : α → GoString) (l : List α) (init : GoString) :
    l.foldl (fun buf x => buf ++ f x) init = init ++ l.flatMap f := by
  induction l generalizing init with
  | nil => simp
  | cons x xs ih => simp [List.foldl_cons, ih, List.flatMap_cons, List.append_assoc]

/-- A loop that appends one piece of text for each element that passes a test. -/
theorem foldl_append_if_eq {α : Type} (p : α → Bool) (f : α → GoString) (l : List α)
    (init : GoString) :
    l.foldl (fun buf x => if p x then buf ++ f x else buf) init
      = init ++ (l.filter p).flatMap f := by
  induction l generalizing init with
  | nil => simp
  | cons x xs ih =>
    by_cases hp : p x = true
    · simp [List.foldl_cons, ih, hp, List.flatMap_cons, List.append_assoc]
    · simp [List.foldl_cons, ih, hp]

theorem lines_ne_nil (s : GoString) : lines s ≠ [] := by
  cases s with
  | nil => simp [lines]
  | cons c cs =>
    unfold lines
    split
    · simp
    · split <;> simp

/-- The lines of a text that has a newline: the lines before it, then the lines after it. -/
theorem lines_append_nl (a b : GoString) : lines (a ++ nl :: b) = lines a ++ lines b := by
  induction a with
  | nil => simp [lines]
  | cons c cs ih =>
    by_cases hc : c = nl
    · simp [lines, hc, ih]
    · rw [List.cons_append, lines, if_neg hc, ih, lines, if_neg hc]
      cases h : lines cs with
      | nil => exact absurd h (lines_ne_nil cs)
      | cons l ls => simp

/-- A text without a newline is one line. -/
theorem lines_of_no_nl (a : GoString) (h : nl ∉ a) : lines a = [a] := by
  induction a with
  | nil => rfl
  | cons c cs ih =>
    have hc : c ≠ nl := fun e => h (e ▸ List.mem_cons_self _ _)
    have hcs : nl ∉ cs := fun e => h (List.mem_cons_of_mem _ e)
    simp [lines, hc, ih hcs]

/-- The first line of a text that starts with a piece without a newline. -/
theorem lines_append_of_no_nl (a b : GoString) (h : nl ∉ a) :
    ∃ l ls, lines b = l :: ls ∧ lines (a ++ b) = (a ++ l) :: ls := by
  induction a with
  | nil =>
    cases hb : lines b with
    | nil => exact absurd hb (lines_ne_nil b)
    | cons l ls => exact ⟨l, ls, rfl, by simpa using hb⟩
  | cons c cs ih =>
    have hc : c ≠ nl := fun e => h (e ▸ List.mem_cons_self _ _)
    have hcs : nl ∉ cs := fun e => h (List.mem_cons_of_mem _ e)
    obtain ⟨l, ls, hb, hl⟩ := ih hcs
    exact ⟨l, ls, hb, by simp [lines, hc, hl]⟩

theorem firstToken_append_tab (name r : GoString) (h : tab ∉ name) :
    firstToken (name ++ tab :: r) = name := by
  induction name with
  | nil => simp [firstToken]
  | cons c cs ih =>
    have hc : c ≠ tab := fun e => h (e ▸ List.mem_cons_self _ _)
    have hcs : tab ∉ cs := fun e => h (List.mem_cons_of_mem _ e)
    have := ih hcs
    simp only [firstToken, List.cons_append, List.takeWhile_cons, hc, ne_eq, not_false_eq_true,
      decide_True, if_true, List.cons.injEq, true_and] at this ⊢
    exact this

/-- An entry `\n name \t r` in a text makes a line whose first token is `name`, when `name` has
neither a newline nor a tab. -/
theorem exists_line_of_entry (pre name r : GoString) (hnl : nl ∉ name) (htab : tab ∉ name) :
    ∃ line ∈ lines (pre ++ nl :: (name ++ tab :: r)), firstToken line = name := by
  rw [lines_append_nl]
  obtain ⟨l, ls, hb, hl⟩ := lines_append_of_no_nl name (tab :: r) hnl
  refine ⟨name ++ l, ?_, ?_⟩
  · rw [hl]
    exact List.mem_append_right _ (List.mem_cons_self _ _)
  · have htl : ∃ l', l = tab :: l' := by
      unfold lines at hb
      split at hb
      · next e => exact absurd e (by decide)
      · split at hb
        · simp only [List.cons.injEq] at hb
          exact ⟨[], hb.1.symm⟩
        · next l0 ls0 _ =>
          simp only [List.cons.injEq] at hb
          exact ⟨l0, hb.1.symm⟩
    obtain ⟨l', rfl⟩ := htl
    exact firstToken_append_tab name l' htab

/-- An entry for one element of a list, among the entries of all of them. -/
theorem exists_line_of_mem {α : Type} (f : α → GoString) (l : List α) (x : α) (hx : x ∈ l)
    (name r : GoString) (hf : f x = nl :: (name ++ tab :: r)) (hnl : nl ∉ name)
    (htab : tab ∉ name) (pre post : GoString) :
    ∃ line ∈ lines (pre ++ l.flatMap f ++ post), firstToken line = name := by
  obtain ⟨l1, l2, rfl⟩ := List.append_of_mem hx
  have e : pre ++ (l1 ++ x :: l2).flatMap f ++ post
      = (pre ++ l1.flatMap f) ++ nl :: (name ++ tab :: (r ++ (l2.flatMap f ++ post))) := by
    simp [List.flatMap_append, List.flatMap_cons, hf, List.append_assoc]
  rw [e]
  exact exists_line_of_entry _ name _ hnl htab

/-! ## findPackageName -/

/-- An entry that holds a value of a concrete type gives no package name. -/
theorem findPackageNameLoop_conc (es : List (MapKey × Dyn)) :
    findPackageNameLoop (es.map (fun e => (e.1, Value.conc e.2))) = ([], false) := by
  induction es with
  | nil => rfl
  | cons e es ih =>
    simp only [List.map_cons, findPackageNameLoop, ih]
    split <;> rfl

/-- A map whose element type is not an interface type has no package name. -/
theorem findPackageName_concElem (es : List (MapKey × Dyn)) :
    findPackageName (.mapOf (.concElem es)) = ([], false) := by
  simp only [findPackageName, ReflectMap.entries]
  exact findPackageNameLoop_conc es

/-- The loop of `findPackageName` finds a name only at an entry whose key is of kind `String`
with the contents `_name` and which holds a value of kind `String`. -/
theorem findPackageNameLoop_true (es : List (MapKey × Value)) (s : GoString)
    (h : findPackageNameLoop es = (s, true)) :
    ∃ k rv, (k, Value.iface (some rv)) ∈ es ∧ k.Kind = .String ∧ k.String = lit "_name"
      ∧ rv.typ.Kind = .String ∧ rv.str = s := by
  induction es with
  | nil => simp [findPackageNameLoop] at h
  | cons e es ih =>
    obtain ⟨k, ev⟩ := e
    have tail : findPackageNameLoop es = (s, true) →
        ∃ k' rv, (k', Value.iface (some rv)) ∈ (k, ev) :: es ∧ k'.Kind = .String
          ∧ k'.String = lit "_name" ∧ rv.typ.Kind = .String ∧ rv.str = s := by
      intro h'
      obtain ⟨k', rv, hm, h1, h2, h3, h4⟩ := ih h'
      exact ⟨k', rv, List.mem_cons_of_mem _ hm, h1, h2, h3, h4⟩
    by_cases hk : k.Kind = .String ∧ k.String = lit "_name"
    · cases ev with
      | conc d =>
        simp only [findPackageNameLoop, hk, and_self, if_true] at h
        exact tail h
      | iface o =>
        cases o with
        | none =>
          simp only [findPackageNameLoop, hk, and_self, if_true] at h
          exact tail h
        | some rv =>
          by_cases hs : rv.typ.Kind = .String
          · simp only [findPackageNameLoop, hk, and_self, if_true, hs, Prod.mk.injEq,
              and_true] at h
            exact ⟨k, rv, List.mem_cons_self _ _, hk.1, hk.2, hs, h⟩
          · simp only [findPackageNameLoop, hk, and_self, if_true, hs, if_false] at h
            exact tail h
    · simp only [findPackageNameLoop, hk, if_false] at h
      exact tail h

/-- The loop of `findPackageName` returns either a name and `true`, or `""` and `false`. -/
theorem findPackageNameLoop_false (es : List (MapKey × Value))
    (h : (findPackageNameLoop es).2 = false) : findPackageNameLoop es = ([], false) := by
  induction es with
  | nil => rfl
  | cons e es ih =>
    obtain ⟨k, ev⟩ := e
    by_cases hk : k.Kind = .String ∧ k.String = lit "_name"
    · cases ev with
      | conc d =>
        simp only [findPackageNameLoop, hk, and_self, if_true] at h ⊢
        exact ih h
      | iface o =>
        cases o with
        | none =>
          simp only [findPackageNameLoop, hk, and_self, if_true] at h ⊢
          exact ih h
        | some rv =>
          by_cases hs : rv.typ.Kind = .String
          · simp [findPackageNameLoop, hk, hs] at h
          · simp only [findPackageNameLoop, hk, and_self, if_true, hs, if_false] at h ⊢
            exact ih h
    · simp only [findPackageNameLoop, hk, if_false] at h ⊢
      exact ih h

/-- When the keys of kind `String` are distinct, an entry whose key is of kind `String` with the
contents `_name` and which holds a value of kind `String` gives the package name. -/
theorem findPackageNameLoop_of_mem (es : List (MapKey × Value)) (k : MapKey) (rv : Dyn)
    (hkeys : ((es.filter (fun e => decide (e.1.Kind = .String))).map (fun e => e.1.String)).Nodup)
    (hm : (k, Value.iface (some rv)) ∈ es) (h1 : k.Kind = .String)
    (h2 : k.String = lit "_name") (h3 : rv.typ.Kind = .String) :
    findPackageNameLoop es = (rv.str, true) := by
  induction es with
  | nil => simp at hm
  | cons e es ih =>
    obtain ⟨k', ev⟩ := e
    rcases List.mem_cons.1 hm with he | he
    · injection he with e1 e2
      subst e1
      subst e2
      simp [findPackageNameLoop, h1, h2, h3]
    · by_cases hk : k'.Kind = .String ∧ k'.String = lit "_name"
      · exfalso
        have hf : (k', ev) :: es = [(k', ev)] ++ es := rfl
        rw [hf, List.filter_append, List.map_append] at hkeys
        have hd := List.disjoint_of_nodup_append hkeys
        refine hd (a := lit "_name") ?_ ?_
        · simp [hk.1, hk.2]
        · rw [List.mem_map]
          exact ⟨(k, Value.iface (some rv)), by simp [List.mem_filter, he, h1], h2⟩
      · have hn : ((es.filter (fun e => decide (e.1.Kind = .String))).map
            (fun e => e.1.String)).Nodup := by
          have hf : (k', ev) :: es = [(k', ev)] ++ es := rfl
          rw [hf, List.filter_append, List.map_append] at hkeys
          exact (List.nodup_append.1 hkeys).2.1
        simp only [findPackageNameLoop, hk, if_false]
        exact ih hn he

/-- The entries of a map: their keys are `MapKeys`. -/
theorem entries_keys (m : ReflectMap) : m.entries.map (fun e => e.1) = m.MapKeys := by
  cases m with
  | ifaceElem es => simp [ReflectMap.entries, ReflectMap.MapKeys, List.map_map]
  | concElem es => simp [ReflectMap.entries, ReflectMap.MapKeys, List.map_map]

/-- The keys of kind `String` of the entries of a map. -/
theorem entries_string_keys (m : ReflectMap) :
    (m.entries.filter (fun e => decide (e.1.Kind = .String))).map (fun e => e.1.String)
      = (m.MapKeys.filter (fun k => decide (k.Kind = .String))).map (fun k => k.String) := by
  rw [← entries_keys, List.filter_map, List.map_map]
  rfl

/-- An entry of a map that holds a value in an interface. -/
theorem mem_entries_iface (es : List (MapKey × Option Dyn)) (k : MapKey) (o : Option Dyn) :
    (k, Value.iface o) ∈ (ReflectMap.ifaceElem es).entries ↔ (k, o) ∈ es := by
  simp only [ReflectMap.entries, List.mem_map, Prod.mk.injEq, Value.iface.injEq]
  constructor
  · rintro ⟨⟨a, b⟩, hab, rfl, rfl⟩
    exact hab
  · intro h
    exact ⟨(k, o), h, rfl, rfl⟩

/-- In a map with a package name every key has an interface value, nil or not. -/
theorem named_entries (m : ReflectMap) (hp : (findPackageName (.mapOf m)).2 = true) :
    ∃ es, m = .ifaceElem es := by
  cases m with
  | concElem es =>
    rw [findPackageName_concElem es] at hp
    exact absurd hp (by decide)
  | ifaceElem es => exact ⟨es, rfl⟩

/-- C7, as amended. `findPackageName` returns `(s, true)` exactly when its argument is a map
whose elements are of an interface type and which has an entry whose key is of kind `String`
with the contents `_name` and whose value is a dynamic value of kind `String` with contents
`s` (the keys of kind `String` of a map being distinct); in every other case it returns
`("", false)`: for an argument that is not a map, for a map whose element type is not an
interface type, such as `map[string]string`, and for a map none of whose keys is of kind
`String`, such as `map[interface{}]interface{}`. -/
theorem findPackageName_iff (i : Iface) (s : GoString)
    (hkeys : ∀ m, i = .mapOf m →
      ((m.MapKeys.filter (fun k => decide (k.Kind = .String))).map (fun k => k.String)).Nodup) :
    (findPackageName i = (s, true) ↔
      ∃ es k rv, i = .mapOf (.ifaceElem es) ∧ (k, some rv) ∈ es ∧ k.Kind = .String
        ∧ k.String = lit "_name" ∧ rv.typ.Kind = .String ∧ rv.str = s)
    ∧ ((¬ ∃ es k rv, i = .mapOf (.ifaceElem es) ∧ (k, some rv) ∈ es ∧ k.Kind = .String
          ∧ k.String = lit "_name" ∧ rv.typ.Kind = .String) → findPackageName i = ([], false))
    ∧ ((∀ m, i ≠ .mapOf m) → findPackageName i = ([], false))
    ∧ (∀ es, findPackageName (.mapOf (.concElem es)) = ([], false))
    ∧ (∀ m, (∀ k ∈ m.MapKeys, k.Kind ≠ .String) → findPackageName (.mapOf m) = ([], false)) := by
  have hfalse : ∀ m : ReflectMap,
      (¬ ∃ es k rv, m = .ifaceElem es ∧ (k, some rv) ∈ es ∧ k.Kind = .String
          ∧ k.String = lit "_name" ∧ rv.typ.Kind = .String) →
      findPackageName (.mapOf m) = ([], false) := by
    intro m hno
    simp only [findPackageName]
    apply findPackageNameLoop_false
    cases hb : (findPackageNameLoop m.entries).2 with
    | false => rfl
    | true =>
      exfalso
      have he : findPackageNameLoop m.entries = ((findPackageNameLoop m.entries).1, true) := by
        rw [← hb]
      obtain ⟨k, rv, hm, h1, h2, h3, _⟩ := findPackageNameLoop_true _ _ he
      cases m with
      | concElem es =>
        simp only [ReflectMap.entries, List.mem_map, Prod.mk.injEq] at hm
        obtain ⟨_, _, _, h⟩ := hm
        cases h
      | ifaceElem es =>
        exact hno ⟨es, k, rv, rfl, (mem_entries_iface es k (some rv)).1 hm, h1, h2, h3⟩
  refine ⟨⟨?_, ?_⟩, ?_, ?_, findPackageName_concElem, ?_⟩
  · intro h
    cases i with
    | mapOf m =>
      simp only [findPackageName] at h
      obtain ⟨k, rv, hm, h1, h2, h3, h4⟩ := findPackageNameLoop_true _ _ h
      cases m with
      | concElem es =>
        simp only [ReflectMap.entries, List.mem_map, Prod.mk.injEq] at hm
        obtain ⟨_, _, _, h⟩ := hm
        cases h
      | ifaceElem es =>
        exact ⟨es, k, rv, rfl, (mem_entries_iface es k (some rv)).1 hm, h1, h2, h3, h4⟩
    | nil => simp [findPackageName] at h
    | cls e => simp [findPackageName] at h
    | obj e => simp [findPackageName] at h
    | host t => simp [findPackageName] at h
  · rintro ⟨es, k, rv, rfl, hm, h1, h2, h3, rfl⟩
    simp only [findPackageName]
    refine findPackageNameLoop_of_mem _ k rv ?_ ((mem_entries_iface es k (some rv)).2 hm) h1 h2 h3
    rw [entries_string_keys]
    exact hkeys _ rfl
  · intro hno
    cases i with
    | mapOf m =>
      apply hfalse
      rintro ⟨es, k, rv, rfl, h⟩
      exact hno ⟨es, k, rv, rfl, h⟩
    | nil => rfl
    | cls e => rfl
    | obj e => rfl
    | host t => rfl
  · intro hno
    cases i with
    | mapOf m => exact absurd rfl (hno m)
    | nil => rfl
    | cls e => rfl
    | obj e => rfl
    | host t => rfl
  · intro m hk
    apply hfalse
    rintro ⟨es, k, rv, rfl, hm, h1, _⟩
    refine hk k ?_ h1
    simp only [ReflectMap.MapKeys, List.mem_map]
    exact ⟨(k, some rv), hm, rfl⟩

/-- A witness of C7: the module `{"_name": "math", "Add": addFn}`. -/
theorem findPackageName_iff_witness :
    (findPackageName (.map exampleModule) = (lit "math", true) ↔
      ∃ es k rv, Iface.map exampleModule = .mapOf (.ifaceElem es) ∧ (k, some rv) ∈ es
        ∧ k.Kind = .String ∧ k.String = lit "_name" ∧ rv.typ.Kind = .String
        ∧ rv.str = lit "math")
    ∧ ((¬ ∃ es k rv, Iface.map exampleModule = .mapOf (.ifaceElem es) ∧ (k, some rv) ∈ es
          ∧ k.Kind = .String ∧ k.String = lit "_name" ∧ rv.typ.Kind = .String)
        → findPackageName (.map exampleModule) = ([], false))
    ∧ ((∀ m, Iface.map exampleModule ≠ .mapOf m)
        → findPackageName (.map exampleModule) = ([], false))
    ∧ (∀ es, findPackageName (.mapOf (.concElem es)) = ([], false))
    ∧ (∀ m, (∀ k ∈ m.MapKeys, k.Kind ≠ .String) → findPackageName (.mapOf m) = ([], false)) :=
  findPackageName_iff (.map exampleModule) (lit "math") (by
    intro m hm
    have e : m = exampleModule.reflect := by
      simp only [Iface.map, Iface.mapOf.injEq] at hm
      exact hm.symm
    subst e
    decide)

/-- C7 fails as stated. The map `map[string]string{"_name": "math"}` has the key `_name`, and
the value stored under it is the string `math`, yet `findPackageName` returns `("", false)`; and
so it does for the map `map[interface{}]interface{}{"_name": "math"}`, whose key is of kind
`Interface`. -/
theorem findPackageName_counterexample :
    (exampleStringMap.HasKey (lit "_name")
      ∧ exampleStringMap.reflect.entries
          = [(stringKey (lit "_name"), .conc (exampleString "math"))]
      ∧ (exampleString "math").typ.Kind = .String
      ∧ (exampleString "math").str = lit "math"
      ∧ findPackageName (.map exampleStringMap) = ([], false)
      ∧ findPackageName (.map exampleStringMap) ≠ (lit "math", true))
    ∧ (exampleInterfaceKey.entries
          = [(⟨.Interface, lit "<interface \x7b\x7d Value>", lit "_name"⟩,
              .iface (some (exampleString "math")))]
      ∧ findPackageName (.mapOf exampleInterfaceKey) = ([], false)
      ∧ findPackageName (.mapOf exampleInterfaceKey) ≠ (lit "math", true)) := by
  refine ⟨⟨⟨exampleString "math", by simp [exampleStringMap]⟩, rfl, by decide, rfl,
    by decide, by decide⟩, rfl, by decide, by decide⟩

/-! ## Doc, variant by variant -/

theorem flatMap_congr_mem {α : Type} (l : List α) (f g : α → GoString)
    (h : ∀ x ∈ l, f x = g x) : l.flatMap f = l.flatMap g := by
  induction l with
  | nil => rfl
  | cons x xs ih =>
    simp only [List.flatMap_cons]
    rw [h x (List.mem_cons_self _ _), ih (fun y hy => h y (List.mem_cons_of_mem _ hy))]

/-- The text of `Doc` for a class: the marker, then one entry for each function. -/
theorem Doc_class (upper : Nat → Bool) (fuel : Nat) (e : Class) :
    Doc upper fuel (.cls (some e)) =
      .returns (lit "*exec.Class"
        ++ e.Fns.flatMap (fun kv => nl :: (kv.1 ++ tab :: kv.2.fmtT))) := by
  simp only [Doc, foldl_append_eq, entry_eq]

/-- The text of `Doc` for an object: the marker, one entry for each function of the class, then
one entry for each instance variable. -/
theorem Doc_object (upper : Nat → Bool) (fuel : Nat) (c : Class)
    (vars : List (GoString × Option Dyn)) :
    Doc upper fuel (.obj (some ⟨some c, vars⟩)) =
      .returns (lit "*exec.Object" ++ c.Fns.flatMap (fun kv => nl :: (kv.1 ++ tab :: kv.2.fmtT))
        ++ vars.flatMap (fun kv => nl :: (kv.1 ++ tab :: fmtT kv.2))) := by
  simp only [Doc, Object.Vars, foldl_append_eq, entry_eq]

/-- The text of `Doc` for a host value when the loop ends at the type `r` within the fuel: the
type of the value, one entry for each exported field of `r`, then one entry for each exported
method of the type of the value. -/
theorem Doc_host (upper : Nat → Bool) (fuel : Nat) (t r : GoType)
    (h : stripPtr fuel t = some r) :
    Doc upper fuel (.host t) =
      .returns (t.String
        ++ ((recordFields r).filter (fun f => IsExported upper f.Name)).flatMap
            (fun f => nl :: (f.Name ++ tab :: f.Typ))
        ++ (t.methods.filter (fun m => IsExported upper m.Name)).flatMap
            (fun m => nl :: (m.Name ++ tab :: m.Typ))) := by
  simp only [Doc, h]
  cases r <;> simp [recordFields, foldl_append_if_eq, lit_nl, lit_tab]

/-- The text of `Doc` for a map without a package name: one entry for each key. -/
theorem Doc_unnamed (upper : Nat → Bool) (fuel : Nat) (m : ReflectMap)
    (h : (findPackageName (.mapOf m)).2 = false) :
    Doc upper fuel (.mapOf m) =
      .returns (m.entries.flatMap (fun e => nl :: (e.1.fmtV ++ tab :: e.2.fmtV))) := by
  simp only [Doc, h, foldl_append_eq, entry_eq]
  simp

theorem Doc_named (upper : Nat → Bool) (fuel : Nat) (m : ReflectMap)
    (h : (findPackageName (.mapOf m)).2 = true) :
    Doc upper fuel (.mapOf m) =
      match docPackageLoop (lit "package " ++ (findPackageName (.mapOf m)).1) m.entries with
      | some buf => .returns buf
      | none => .panics := by
  simp only [Doc, h, if_true]

/-- The loop of `Doc` over a map with a package name, when every entry that it reaches holds a
value in an interface: one entry for each key that does not start with `_`. -/
theorem docPackageLoop_some (buf : GoString) (es : List (MapKey × Value))
    (h : ∀ e ∈ es, HasPrefix e.1.String (lit "_") = false → ∃ rv, e.2 = .iface (some rv)) :
    docPackageLoop buf es =
      some (buf ++ (es.filter (fun e => !HasPrefix e.1.String (lit "_"))).flatMap
        (fun e => nl :: (e.1.fmtV ++ tab :: (e.2.typeString ++ lit " ")))) := by
  induction es generalizing buf with
  | nil => simp [docPackageLoop]
  | cons e es ih =>
    obtain ⟨k, ev⟩ := e
    have ih' := fun b => ih b (fun x hx => h x (List.mem_cons_of_mem _ hx))
    by_cases hp : HasPrefix k.String (lit "_") = true
    · simp [docPackageLoop, hp, ih']
    · have hp' : HasPrefix k.String (lit "_") = false := by simpa using hp
      obtain ⟨rv, hrv⟩ := h (k, ev) (List.mem_cons_self _ _) hp'
      simp only at hrv
      subst hrv
      simp [docPackageLoop, hp', ih', Value.typeString, lit_nl, lit_tab, List.append_assoc]

/-- The loop of `Doc` over a map with a package name panics at an entry that holds nil. -/
theorem docPackageLoop_none (buf : GoString) (es : List (MapKey × Value)) (k : MapKey)
    (hk : (k, Value.iface none) ∈ es) (hp : HasPrefix k.String (lit "_") = false) :
    docPackageLoop buf es = none := by
  induction es generalizing buf with
  | nil => simp at hk
  | cons x xs ih =>
    obtain ⟨k', ev⟩ := x
    by_cases hx : (k', ev) = (k, Value.iface none)
    · injection hx with h1 h2
      subst h1
      subst h2
      simp [docPackageLoop, hp]
    · have hk' : (k, Value.iface none) ∈ xs := by
        rcases List.mem_cons.1 hk with e | e
        · exact absurd e.symm hx
        · exact e
      have ih' := fun b => ih b hk'
      by_cases hpx : HasPrefix k'.String (lit "_") = true
      · simp [docPackageLoop, hpx, ih']
      · have hpx' : HasPrefix k'.String (lit "_") = false := by simpa using hpx
        cases ev with
        | conc d => simp [docPackageLoop, hpx', ih']
        | iface o =>
          cases o with
          | none => simp [docPackageLoop, hpx']
          | some rv => simp [docPackageLoop, hpx', ih']

/-- The text of `Doc` for a map with a package name, none of whose entries under a key that does
not start with `_` holds nil: the name, then one entry for each such key. -/
theorem Doc_named_text (upper : Nat → Bool) (fuel : Nat) (m : ReflectMap)
    (hp : (findPackageName (.mapOf m)).2 = true)
    (hnil : ∀ e ∈ m.entries, HasPrefix e.1.String (lit "_") = false → e.2 ≠ .iface none) :
    Doc upper fuel (.mapOf m) =
      .returns (lit "package " ++ (findPackageName (.mapOf m)).1
        ++ (m.entries.filter (fun e => !HasPrefix e.1.String (lit "_"))).flatMap
          (fun e => nl :: (e.1.fmtV ++ tab :: (e.2.typeString ++ lit " ")))) := by
  rw [Doc_named upper fuel m hp, docPackageLoop_some]
  intro e he hu
  obtain ⟨es, rfl⟩ := named_entries m hp
  have hne := hnil e he hu
  simp only [ReflectMap.entries, List.mem_map] at he
  obtain ⟨⟨k, o⟩, _, rfl⟩ := he
  cases o with
  | none => exact absurd rfl hne
  | some rv => exact ⟨rv, rfl⟩

/-- When `Doc` returns for a map with a package name, no entry under a key that does not start
with `_` holds nil. -/
theorem Doc_named_returns (upper : Nat → Bool) (fuel : Nat) (m : ReflectMap) (s : GoString)
    (hp : (findPackageName (.mapOf m)).2 = true) (hDoc : Doc upper fuel (.mapOf m) = .returns s) :
    ∀ e ∈ m.entries, HasPrefix e.1.String (lit "_") = false → e.2 ≠ .iface none := by
  intro e he hu hn
  obtain ⟨k, ev⟩ := e
  simp only at hn hu
  subst hn
  rw [Doc_named upper fuel m hp, docPackageLoop_none _ _ k he hu] at hDoc
  cases hDoc

/-! ## C6: the names of Dir in the text of Doc -/

theorem entry_line_of_pair {β : Type} (l : List (GoString × β)) (g : β → GoString)
    (n : GoString) (hn : n ∈ l.map (fun kv => kv.1)) (hnl : nl ∉ n) (htab : tab ∉ n)
    (pre post : GoString) :
    ∃ line ∈ lines (pre ++ l.flatMap (fun kv => nl :: (kv.1 ++ tab :: g kv.2)) ++ post),
      firstToken line = n := by
  obtain ⟨kv, hkv, rfl⟩ := List.mem_map.1 hn
  exact exists_line_of_mem _ l kv hkv kv.1 (g kv.2) rfl hnl htab pre post

theorem entry_line_of_exported {α : Type} (upper : Nat → Bool) (l : List α)
    (name typ : α → GoString) (n : GoString)
    (hn : n ∈ (l.filter (fun x => IsExported upper (name x))).map name) (hnl : nl ∉ n)
    (htab : tab ∉ n) (pre post : GoString) :
    ∃ line ∈ lines (pre
        ++ (l.filter (fun x => IsExported upper (name x))).flatMap
            (fun x => nl :: (name x ++ tab :: typ x)) ++ post),
      firstToken line = n := by
  obtain ⟨x, hx, rfl⟩ := List.mem_map.1 hn
  exact exists_line_of_mem _ _ x hx (name x) (typ x) rfl hnl htab pre post

/-- C6, as amended. Whenever `Doc` returns a text, `Dir` returns a list, and every name of that
list that has neither a tab nor a newline in it, that for a map belongs to a key which `%v`
writes as that name (as it does every key of type `string`), and that for a Module with a
package name does not start with `_`, is the first tab-separated token of some line of the
text. -/
theorem Dir_names_in_Doc (upper : Nat → Bool) (fuel : Nat) (v : Iface) (s : GoString)
    (hDoc : Doc upper fuel v = .returns s) :
    ∃ names, Dir upper fuel v = .returns names
      ∧ ∀ n ∈ names, nl ∉ n → tab ∉ n →
          (∀ m, v = .mapOf m → ∃ k ∈ m.MapKeys, k.String = n ∧ k.fmtV = n) →
          ((findPackageName v).2 = true → HasPrefix n (lit "_") = false) →
          ∃ line ∈ lines s, firstToken line = n := by
  cases v with
  | nil => simp [Doc] at hDoc
  | mapOf m =>
    refine ⟨m.MapKeys.map (fun k : MapKey => k.String), rfl, ?_⟩
    intro n _ hnl htab hkey hund
    obtain ⟨k, hk, hkS, hkV⟩ := hkey m rfl
    rw [← entries_keys, List.mem_map] at hk
    obtain ⟨e, he, hek⟩ := hk
    by_cases hp : (findPackageName (.mapOf m)).2 = true
    · have hnil := Doc_named_returns upper fuel m s hp hDoc
      rw [Doc_named_text upper fuel m hp hnil] at hDoc
      injection hDoc with hs
      have hu : HasPrefix e.1.String (lit "_") = false := by
        rw [hek, hkS]
        exact hund hp
      have hmem : e ∈ m.entries.filter (fun e => !HasPrefix e.1.String (lit "_")) := by
        simp [he, hu]
      have := exists_line_of_mem
        (fun e : MapKey × Value => nl :: (e.1.fmtV ++ tab :: (e.2.typeString ++ lit " "))) _ e
        hmem n (e.2.typeString ++ lit " ") (by simp only [hek, hkV]) hnl htab
        (lit "package " ++ (findPackageName (.mapOf m)).1) []
      rw [List.append_nil, hs] at this
      exact this
    · have hp' : (findPackageName (.mapOf m)).2 = false := by simpa using hp
      rw [Doc_unnamed upper fuel m hp'] at hDoc
      injection hDoc with hs
      have := exists_line_of_mem
        (fun e : MapKey × Value => nl :: (e.1.fmtV ++ tab :: e.2.fmtV)) m.entries e he
        n e.2.fmtV (by simp only [hek, hkV]) hnl htab [] []
      rw [List.append_nil, List.nil_append, hs] at this
      exact this
  | cls e =>
    cases e with
    | none => simp [Doc] at hDoc
    | some e =>
      refine ⟨e.Fns.map (fun kv : GoString × Function => kv.1), rfl, ?_⟩
      intro n hn hnl htab _ _
      rw [Doc_class] at hDoc
      injection hDoc with hs
      have := entry_line_of_pair e.Fns (fun f => f.fmtT) n hn hnl htab (lit "*exec.Class") []
      rw [List.append_nil, hs] at this
      exact this
  | obj e =>
    cases e with
    | none => simp [Doc] at hDoc
    | some e =>
      obtain ⟨cls, vars⟩ := e
      cases cls with
      | none => simp [Doc] at hDoc
      | some c =>
        refine ⟨c.Fns.map (fun kv : GoString × Function => kv.1)
          ++ vars.map (fun kv : GoString × Option Dyn => kv.1), rfl, ?_⟩
        intro n hn hnl htab _ _
        rw [Doc_object] at hDoc
        injection hDoc with hs
        rw [← hs]
        rcases List.mem_append.1 hn with hn | hn
        · exact entry_line_of_pair c.Fns (fun f => f.fmtT) n hn hnl htab (lit "*exec.Object") _
        · have := entry_line_of_pair vars fmtT n hn hnl htab
            (lit "*exec.Object" ++ c.Fns.flatMap (fun kv => nl :: (kv.1 ++ tab :: kv.2.fmtT))) []
          rw [List.append_nil] at this
          exact this
  | host t =>
    cases hr : stripPtr fuel t with
    | none =>
      rw [(host_outOfFuel upper fuel t hr).2.2] at hDoc
      cases hDoc
    | some r =>
      refine ⟨_, Dir_host upper fuel t r hr, ?_⟩
      intro n hn hnl htab _ _
      rw [Doc_host upper fuel t r hr] at hDoc
      injection hDoc with hs
      rw [← hs]
      rcases List.mem_append.1 hn with hn | hn
      · exact entry_line_of_exported upper (recordFields r) StructField.Name StructField.Typ n hn
          hnl htab t.String _
      · have := entry_line_of_exported upper t.methods Method.Name Method.Typ n hn hnl htab
          (t.String ++ ((recordFields r).filter (fun f => IsExported upper f.Name)).flatMap
              (fun f => nl :: (f.Name ++ tab :: f.Typ))) []
        rw [List.append_nil] at this
        exact this

/-- A witness of C6: the module `{"_name": "math", "Add": addFn}`. -/
theorem Dir_names_in_Doc_witness :
    ∃ names, Dir (fun _ => false) 0 (.map exampleModule) = .returns names
      ∧ ∀ n ∈ names, nl ∉ n → tab ∉ n →
          (∀ m, Iface.map exampleModule = .mapOf m → ∃ k ∈ m.MapKeys, k.String = n ∧ k.fmtV = n) →
          ((findPackageName (.map exampleModule)).2 = true → HasPrefix n (lit "_") = false) →
          ∃ line ∈ lines (lit "package math\nAdd\tfunc(int, int) int "), firstToken line = n :=
  Dir_names_in_Doc (fun _ => false) 0 (.map exampleModule)
    (lit "package math\nAdd\tfunc(int, int) int ") (by decide)

/-- C6 fails as stated. For the module `{"_name": "math", "Add": addFn}` the name `_name` is in
`Dir` and is the first token of no line of `Doc`; for the module `{"a\tb": 1}` the key is in
`Dir` and the first token of its line is `a`; for a module with the key `a\n_b` the key is in
`Dir` and no line has it as first token; for the map `map[int]int{7: 1}` the name in `Dir` is
`<int Value>` and the line of `Doc` starts with `7`; for a map whose key type has a `String`
method the name in `Dir` is the contents `a` of the key and the line of `Doc` starts with the
result `_k` of the method; and for a module with a package name and a nil entry `Dir` returns
while `Doc` does not. -/
theorem Dir_names_in_Doc_counterexample :
    (Dir (fun _ => false) 0 (.map exampleModule) = .returns [lit "_name", lit "Add"]
      ∧ Doc (fun _ => false) 0 (.map exampleModule)
          = .returns (lit "package math\nAdd\tfunc(int, int) int ")
      ∧ ¬ ∃ line ∈ lines (lit "package math\nAdd\tfunc(int, int) int "),
          firstToken line = lit "_name")
    ∧ (Dir (fun _ => false) 0 (.map exampleTabKey) = .returns [lit "a\tb"]
      ∧ Doc (fun _ => false) 0 (.map exampleTabKey) = .returns (lit "\na\tb\t1")
      ∧ ¬ ∃ line ∈ lines (lit "\na\tb\t1"), firstToken line = lit "a\tb")
    ∧ (Dir (fun _ => false) 0 (.map exampleNewlineKey) = .returns [lit "_name", lit "a\n_b"]
      ∧ Doc (fun _ => false) 0 (.map exampleNewlineKey)
          = .returns (lit "package math\na\n_b\tint ")
      ∧ ¬ ∃ line ∈ lines (lit "package math\na\n_b\tint "), firstToken line = lit "a\n_b")
    ∧ (Dir (fun _ => false) 0 (.mapOf exampleIntKey) = .returns [lit "<int Value>"]
      ∧ Doc (fun _ => false) 0 (.mapOf exampleIntKey) = .returns (lit "\n7\t1")
      ∧ ¬ ∃ line ∈ lines (lit "\n7\t1"), firstToken line = lit "<int Value>")
    ∧ (Dir (fun _ => false) 0 (.mapOf exampleStringerKey) = .returns [lit "a"]
      ∧ Doc (fun _ => false) 0 (.mapOf exampleStringerKey) = .returns (lit "\n_k\t1")
      ∧ ¬ ∃ line ∈ lines (lit "\n_k\t1"), firstToken line = lit "a")
    ∧ (Dir (fun _ => false) 0 (.map exampleNilEntry) = .returns [lit "_name", lit "X"]
      ∧ Doc (fun _ => false) 0 (.map exampleNilEntry) = .panics) := by
  refine ⟨⟨by decide, by decide, by decide⟩, ⟨by decide, by decide, by decide⟩,
    ⟨by decide, by decide, by decide⟩, ⟨by decide, by decide, by decide⟩,
    ⟨by decide, by decide, by decide⟩, by decide, by decide⟩

/-! ## C8: the text of Doc for a Module with a package name -/

/-- The lines of a header followed by entries, when neither has a newline inside. -/
theorem lines_entries {α : Type} (l : List α) (g : α → GoString) (header : GoString)
    (hh : nl ∉ header) (hg : ∀ x ∈ l, nl ∉ g x) :
    lines (header ++ l.flatMap (fun x => nl :: g x)) = header :: l.map g := by
  induction l generalizing header with
  | nil => simpa using lines_of_no_nl header hh
  | cons x xs ih =>
    have e : header ++ (x :: xs).flatMap (fun x => nl :: g x)
        = header ++ nl :: (g x ++ xs.flatMap (fun x => nl :: g x)) := by
      simp [List.flatMap_cons]
    rw [e, lines_append_nl, lines_of_no_nl header hh,
      ih (g x) (hg x (List.mem_cons_self _ _)) (fun y hy => hg y (List.mem_cons_of_mem _ hy))]
    simp

theorem HasPrefix_underscore (s : GoString) :
    HasPrefix s (lit "_") = true ↔ ∃ t, s = (95 : Fin 256) :: t := by
  have hl : lit "_" = [(95 : Fin 256)] := rfl
  cases s with
  | nil => simp [HasPrefix, hl]
  | cons c cs =>
    have e : HasPrefix (c :: cs) (lit "_") = ((95 : Fin 256) == c) := by
      unfold HasPrefix
      rw [hl]
      simp [List.isPrefixOf]
    rw [e]
    constructor
    · intro h
      have hc := eq_of_beq h
      exact ⟨cs, by rw [← hc]⟩
    · rintro ⟨t, ht⟩
      injection ht with h1 h2
      rw [h1]
      exact beq_self_eq_true _

theorem firstToken_underscore (l : GoString) (h : HasPrefix (firstToken l) (lit "_") = true) :
    HasPrefix l (lit "_") = true := by
  rw [HasPrefix_underscore] at h ⊢
  obtain ⟨t, ht⟩ := h
  cases l with
  | nil => simp [firstToken] at ht
  | cons c cs =>
    by_cases hc : c = tab
    · simp [firstToken, hc] at ht
    · simp only [firstToken, List.takeWhile_cons, hc, ne_eq, not_false_eq_true, decide_True,
        if_true, List.cons.injEq] at ht
      exact ⟨cs, by rw [ht.1]⟩

/-- C8, as amended. For a Module `m` whose package name resolves to `n`, in which no entry under
a key that does not start with `_` holds nil, and in which neither `n` nor what is written for
such a key or for the type of its value has a newline in it, `Doc` returns a text whose first
line is `package n` and whose other lines are, in iteration order, exactly one line for each
key of `m` that does not start with `_`: the line begins with the key as `%v` writes it, a tab
and the dynamic type of the value.  When `%v` writes every key as its contents, as it does the
keys of type `string`, no line has a name that starts with `_`. -/
theorem Doc_package (upper : Nat → Bool) (fuel : Nat) (m : ReflectMap) (n : GoString)
    (hname : findPackageName (.mapOf m) = (n, true))
    (hnil : ∀ e ∈ m.entries, HasPrefix e.1.String (lit "_") = false → e.2 ≠ .iface none)
    (hn : nl ∉ n)
    (hnl : ∀ e ∈ m.entries, HasPrefix e.1.String (lit "_") = false →
      nl ∉ e.1.fmtV ∧ nl ∉ e.2.typeString) :
    ∃ text ls, Doc upper fuel (.mapOf m) = .returns text
      ∧ lines text = (lit "package " ++ n) :: ls
      ∧ List.Forall₂ (fun line e => List.IsPrefix (e.1.fmtV ++ tab :: e.2.typeString) line)
          ls (m.entries.filter (fun e => !HasPrefix e.1.String (lit "_")))
      ∧ ((∀ k ∈ m.MapKeys, k.fmtV = k.String) →
          ∀ line ∈ lines text, HasPrefix (firstToken line) (lit "_") = false) := by
  have hp : (findPackageName (.mapOf m)).2 = true := by rw [hname]
  have h1 : (findPackageName (.mapOf m)).1 = n := by rw [hname]
  have hDoc := Doc_named_text upper fuel m hp hnil
  rw [h1] at hDoc
  have hh : nl ∉ lit "package " ++ n := by
    rw [List.mem_append]
    rintro (h | h)
    · exact absurd h (by decide)
    · exact hn h
  have hg : ∀ e ∈ m.entries.filter (fun e => !HasPrefix e.1.String (lit "_")),
      nl ∉ e.1.fmtV ++ tab :: (e.2.typeString ++ lit " ") := by
    intro e he
    obtain ⟨he1, he2⟩ := List.mem_filter.1 he
    have he3 : HasPrefix e.1.String (lit "_") = false := by simpa using he2
    have := hnl e he1 he3
    simp only [List.mem_append, List.mem_cons, not_or]
    refine ⟨this.1, by decide, this.2, ?_⟩
    decide
  have hl := lines_entries (m.entries.filter (fun e => !HasPrefix e.1.String (lit "_")))
    (fun e => e.1.fmtV ++ tab :: (e.2.typeString ++ lit " ")) _ hh hg
  refine ⟨_, _, hDoc, hl, ?_, ?_⟩
  · rw [List.forall₂_map_left_iff, List.forall₂_same]
    intro e _
    exact ⟨lit " ", by simp⟩
  · intro hfmt line hline
    rw [hl] at hline
    rw [Bool.eq_false_iff]
    intro hu
    have hu' := (HasPrefix_underscore line).1 (firstToken_underscore line hu)
    obtain ⟨t, ht⟩ := hu'
    rcases List.mem_cons.1 hline with h | h
    · rw [h] at ht
      have hpk : lit "package " = (112 : Fin 256) :: lit "ackage " := rfl
      rw [hpk] at ht
      simp only [List.cons_append, List.cons.injEq] at ht
      exact absurd ht.1 (by decide)
    · obtain ⟨e, he, rfl⟩ := List.mem_map.1 h
      obtain ⟨he1, he2⟩ := List.mem_filter.1 he
      have hk2 : HasPrefix e.1.String (lit "_") = false := by simpa using he2
      have hk : e.1 ∈ m.MapKeys := by
        rw [← entries_keys]
        exact List.mem_map.2 ⟨e, he1, rfl⟩
      rw [← hfmt e.1 hk] at hk2
      cases hf : e.1.fmtV with
      | nil =>
        rw [hf] at ht
        simp only [List.nil_append, List.cons.injEq] at ht
        exact absurd ht.1 (by decide)
      | cons c cs =>
        rw [hf] at ht hk2
        simp only [List.cons_append, List.cons.injEq] at ht
        have : HasPrefix (c :: cs) (lit "_") = true :=
          (HasPrefix_underscore _).2 ⟨cs, by rw [ht.1]⟩
        rw [hk2] at this
        exact absurd this (by decide)

/-- A witness of C8: for the module `{"_name": "math", "Add": addFn}` the first line is
`package math`, and there is exactly one more line, which is the line for `Add`. -/
theorem Doc_package_witness :
    ∃ text ls, Doc (fun _ => false) 0 (.mapOf exampleModule.reflect) = .returns text
      ∧ lines text = lit "package math" :: ls
      ∧ List.Forall₂ (fun line e => List.IsPrefix (e.1.fmtV ++ tab :: e.2.typeString) line)
          ls [(stringKey (lit "Add"), Value.iface (some exampleFunc))]
      ∧ ((∀ k ∈ exampleModule.reflect.MapKeys, k.fmtV = k.String) →
          ∀ line ∈ lines text, HasPrefix (firstToken line) (lit "_") = false) :=
  Doc_package (fun _ => false) 0 exampleModule.reflect (lit "math") (by decide) (by decide)
    (by decide) (by decide)

/-- C8 fails as stated. A Module with a package name and an entry `"X": nil` makes `Doc` panic,
so that it returns no text.  For a Module with a package name and the key `a\n_b`, which does
not start with `_`, the text of `Doc` has a line whose first token starts with `_`, and so it
has for a Module whose package name is `a\n_b`.  For a map with a package name whose key type
has a `String` method, the line for the key with the contents `a` carries the result `_k` of
the method, which starts with `_`, and not the key. -/
theorem Doc_package_counterexample :
    (findPackageName (.map exampleNilEntry) = (lit "math", true)
      ∧ Doc (fun _ => false) 0 (.map exampleNilEntry) = .panics)
    ∧ (findPackageName (.map exampleNewlineKey) = (lit "math", true)
      ∧ HasPrefix (lit "a\n_b") (lit "_") = false
      ∧ Doc (fun _ => false) 0 (.map exampleNewlineKey)
          = .returns (lit "package math\na\n_b\tint ")
      ∧ ∃ line ∈ lines (lit "package math\na\n_b\tint "),
          HasPrefix (firstToken line) (lit "_") = true)
    ∧ (findPackageName (.map exampleNewlineName) = (lit "a\n_b", true)
      ∧ Doc (fun _ => false) 0 (.map exampleNewlineName) = .returns (lit "package a\n_b")
      ∧ lines (lit "package a\n_b") = [lit "package a", lit "_b"])
    ∧ (findPackageName (.mapOf exampleStringerNamed) = (lit "math", true)
      ∧ exampleStringerNamed.MapKeys.map (fun k => k.String) = [lit "_name", lit "a"]
      ∧ Doc (fun _ => false) 0 (.mapOf exampleStringerNamed)
          = .returns (lit "package math\n_k\tint ")
      ∧ lines (lit "package math\n_k\tint ") = [lit "package math", lit "_k\tint "]) := by
  refine ⟨⟨by decide, by decide⟩, ⟨by decide, by decide, by decide, by decide⟩,
    ⟨by decide, by decide, by decide⟩, by decide, by decide, by decide, by decide⟩

/-! ## C9: the form of an entry -/

/-- C9, at the failing input: for the Module `{"_name": "math", "Add": addFn}` the text of `Doc`
ends in a blank, which follows the type of `Add`; it is not the text `package math`, newline,
`Add`, tab, type. -/
theorem Doc_package_trailing_blank (fuel : Nat) :
    Doc (fun _ => false) fuel (.map exampleModule)
        = .returns (lit "package math\nAdd\tfunc(int, int) int" ++ lit " ")
    ∧ Doc (fun _ => false) fuel (.map exampleModule)
        ≠ .returns (lit "package math" ++ (lit "\n" ++ lit "Add" ++ lit "\t"
            ++ exampleFunc.typ.String)) := by
  have h : Doc (fun _ => false) fuel (.map exampleModule)
      = Doc (fun _ => false) 0 (.map exampleModule) := rfl
  rw [h]
  refine ⟨by decide, by decide⟩

/-! ## C10: the start of the text -/

/-- C10, at the failing input: for the Module `{"x": 1}`, which has no package name, `Doc`
writes no first line; the text is a newline, `x`, a tab and `1`, and begins with a newline.
For a Module with a package name, a class, an object and a host value the text begins with a
first line: `package math`, `*exec.Class`, `*exec.Object`, `int`. -/
theorem Doc_unnamed_leading_newline (fuel : Nat) :
    (findPackageName (.map exampleUnnamed) = ([], false)
      ∧ Doc (fun _ => false) fuel (.map exampleUnnamed) = .returns (lit "\nx\t1")
      ∧ lit "\nx\t1" = nl :: lit "x\t1")
    ∧ Doc (fun _ => false) fuel (.map exampleModule)
        = .returns (lit "package math\nAdd\tfunc(int, int) int ")
    ∧ Doc (fun _ => false) fuel (.cls (some ⟨[]⟩)) = .returns (lit "*exec.Class")
    ∧ Doc (fun _ => false) fuel (.obj (some ⟨some ⟨[]⟩, []⟩)) = .returns (lit "*exec.Object")
    ∧ Doc (fun _ => false) fuel (.host exampleIntType) = .returns (lit "int") := by
  have h1 : Doc (fun _ => false) fuel (.map exampleUnnamed)
      = Doc (fun _ => false) 0 (.map exampleUnnamed) := rfl
  have h2 : Doc (fun _ => false) fuel (.map exampleModule)
      = Doc (fun _ => false) 0 (.map exampleModule) := rfl
  rw [h1, h2]
  refine ⟨⟨by decide, by decide, by decide⟩, by decide, rfl, rfl, ?_⟩
  cases fuel <;> rfl

/-! ## C11: the text of Doc for a Module without a package name -/

/-- C11, as amended. For a Module `m` without a package name, in which neither what `%v`
writes for a key nor what it writes for the value of an entry has a newline in it, `Doc`
returns a text whose lines are, after at most one first line, exactly one line for each key of
`m`, in iteration order: the key as `%v` writes it, a tab and what `%v` writes for the value
(not its type). -/
theorem Doc_unnamed_entries (upper : Nat → Bool) (fuel : Nat) (m : ReflectMap)
    (hname : (findPackageName (.mapOf m)).2 = false)
    (hnl : ∀ e ∈ m.entries, nl ∉ e.1.fmtV ∧ nl ∉ e.2.fmtV) :
    ∃ text first, Doc upper fuel (.mapOf m) = .returns text
      ∧ lines text = first ++ m.entries.map (fun e => e.1.fmtV ++ tab :: e.2.fmtV)
      ∧ first.length ≤ 1 := by
  have hg : ∀ e ∈ m.entries, nl ∉ e.1.fmtV ++ tab :: e.2.fmtV := by
    intro e he
    have := hnl e he
    simp only [List.mem_append, List.mem_cons, not_or]
    exact ⟨this.1, by decide, this.2⟩
  have hl := lines_entries m.entries (fun e => e.1.fmtV ++ tab :: e.2.fmtV) []
    (by simp) hg
  rw [List.nil_append] at hl
  exact ⟨_, [[]], Doc_unnamed upper fuel m hname, hl, by simp⟩

/-- A witness of C11: for the module `{"x": 1, "y": "hi"}` the lines are, after at most one
first line, the line of `x` with `1` and the line of `y` with `hi`. -/
theorem Doc_unnamed_entries_witness :
    ∃ text first, Doc (fun _ => false) 0 (.mapOf exampleTwoKeys.reflect) = .returns text
      ∧ lines text = first ++ [lit "x\t1", lit "y\thi"]
      ∧ first.length ≤ 1 :=
  Doc_unnamed_entries (fun _ => false) 0 exampleTwoKeys.reflect (by decide) (by decide)

/-- C11 fails as stated. For a module whose only key `x` holds the string of the two lines `a`
and `b`, the text of `Doc` has the lines `x<tab>a` and `b`, two lines for one key, the second
without the key.  For a map whose key type has a `String` method, the line for the key with the
contents `a` carries the result `_k` of the method and not the key. -/
theorem Doc_unnamed_entries_counterexample :
    ((findPackageName (.map exampleTwoLineValue)).2 = false
      ∧ exampleTwoLineValue.MapKeys = [lit "x"]
      ∧ Doc (fun _ => false) 0 (.map exampleTwoLineValue) = .returns (lit "\nx\ta\nb")
      ∧ (lines (lit "\nx\ta\nb")).tail = [lit "x\ta", lit "b"])
    ∧ ((findPackageName (.mapOf exampleStringerKey)).2 = false
      ∧ exampleStringerKey.MapKeys.map (fun k => k.String) = [lit "a"]
      ∧ Doc (fun _ => false) 0 (.mapOf exampleStringerKey) = .returns (lit "\n_k\t1")
      ∧ (lines (lit "\n_k\t1")).tail = [lit "_k\t1"]) := by
  refine ⟨⟨by decide, by decide, by decide, by decide⟩,
    by decide, by decide, by decide, by decide⟩

/-! ## C12, C13: the text of Doc for a class and an object -/

/-- C12. For a Class `C`, `Doc` returns the marker `*exec.Class` followed by one entry for each
pair of the function table, in iteration order, and by nothing else: an entry is a newline, the
name, a tab and the dynamic type of the function.  When the function table is empty, the text
is the marker and `Dir` returns the empty list. -/
theorem Doc_class_entries (upper : Nat → Bool) (fuel : Nat) (C : Class) :
    (∃ entries : List GoString,
      Doc upper fuel (.cls (some C)) = .returns (lit "*exec.Class" ++ entries.flatten)
      ∧ entries = C.Fns.map (fun kv => lit "\n" ++ kv.1 ++ lit "\t" ++ kv.2.fmtT)
      ∧ entries.length = C.Fns.length)
    ∧ Doc upper fuel (.cls (some ⟨[]⟩)) = .returns (lit "*exec.Class")
    ∧ Dir upper fuel (.cls (some ⟨[]⟩)) = .returns [] := by
  refine ⟨⟨_, ?_, rfl, by simp⟩, rfl, rfl⟩
  rw [Doc_class]
  simp [List.flatMap, lit_nl, lit_tab]

/-- C13. For an Object `o` with owning Class `C`, `Doc` returns the marker `*exec.Object`, then
one entry for each pair of the function table of `C` (name and dynamic type of the function),
then one entry for each instance variable of `o` (name and dynamic type of the value): the
entries of the functions come before those of the variables, and there are as many entries as
functions and variables together. -/
theorem Doc_object_entries (upper : Nat → Bool) (fuel : Nat) (C : Class)
    (vars : List (GoString × Option Dyn)) :
    ∃ fnEntries varEntries : List GoString,
      Doc upper fuel (.obj (some ⟨some C, vars⟩))
          = .returns (lit "*exec.Object" ++ (fnEntries ++ varEntries).flatten)
      ∧ fnEntries = C.Fns.map (fun kv => lit "\n" ++ kv.1 ++ lit "\t" ++ kv.2.fmtT)
      ∧ varEntries = vars.map (fun kv => lit "\n" ++ kv.1 ++ lit "\t" ++ fmtT kv.2)
      ∧ (fnEntries ++ varEntries).length = C.Fns.length + vars.length := by
  refine ⟨_, _, ?_, rfl, rfl, by simp⟩
  rw [Doc_object]
  simp [List.flatMap, lit_nl, lit_tab, List.append_assoc]

/-! ## C15: panics -/

/-- C15, at the failing inputs. `Dir` and `Doc` panic on the nil interface value, on a nil
`*exec.Class`, and on an Object whose owning Class is missing; `Doc` panics on a Module with a
package name one of whose entries holds nil, on which `Dir` returns.  On a Class with a missing
function table both return.  On a value of the type `P` of `type P *P` neither returns: the
loop over the pointer levels does not end. -/
theorem Dir_Doc_panic (fuel : Nat) :
    (Dir (fun _ => false) fuel .nil = .panics ∧ Doc (fun _ => false) fuel .nil = .panics)
    ∧ (Dir (fun _ => false) fuel (.cls none) = .panics
      ∧ Doc (fun _ => false) fuel (.cls none) = .panics)
    ∧ (Dir (fun _ => false) fuel (.obj (some ⟨none, []⟩)) = .panics
      ∧ Doc (fun _ => false) fuel (.obj (some ⟨none, []⟩)) = .panics)
    ∧ (Dir (fun _ => false) fuel (.map exampleNilEntry) = .returns [lit "_name", lit "X"]
      ∧ Doc (fun _ => false) fuel (.map exampleNilEntry) = .panics)
    ∧ (Dir (fun _ => false) fuel (.cls (some ⟨[]⟩)) = .returns []
      ∧ Doc (fun _ => false) fuel (.cls (some ⟨[]⟩)) = .returns (lit "*exec.Class"))
    ∧ (Dir (fun _ => false) fuel (.host exampleSelfPointer) = .outOfFuel
      ∧ Doc (fun _ => false) fuel (.host exampleSelfPointer) = .outOfFuel) := by
  have h1 : Dir (fun _ => false) fuel (.map exampleNilEntry)
      = Dir (fun _ => false) 0 (.map exampleNilEntry) := rfl
  have h2 : Doc (fun _ => false) fuel (.map exampleNilEntry)
      = Doc (fun _ => false) 0 (.map exampleNilEntry) := rfl
  have h3 := host_outOfFuel (fun _ => false) fuel exampleSelfPointer (stripPtr_self fuel _ _)
  rw [h1, h2]
  exact ⟨⟨rfl, rfl⟩, ⟨rfl, rfl⟩, ⟨rfl, rfl⟩, ⟨by decide, by decide⟩, ⟨rfl, rfl⟩, h3.2⟩

/-! ## C5, C14, C16, C19, C20: host values -/

/-- The result of `ExporStructField` for a pointer type is that for its element type, with one
more step of the loop. -/
theorem ExporStructField_ptr (upper : Nat → Bool) (fuel : Nat) (str : GoString)
    (ms : List Method) (t : GoType) :
    ExporStructField upper (fuel + 1) (.ptr str ms t) = ExporStructField upper fuel t := by
  simp only [ExporStructField, stripPtr]

/-- For a host value on whose type the loop ends within the fuel, every name in `Dir` is
exported, and the names are those of the exported fields of the record that the type reaches,
if it reaches one, and of the exported methods of the type. -/
theorem Dir_host_names (upper : Nat → Bool) (fuel : Nat) (t r : GoType)
    (h : stripPtr fuel t = some r) :
    ∃ list, Dir upper fuel (.host t) = .returns list
      ∧ (∀ n ∈ list, IsExported upper n = true)
      ∧ ∀ n, n ∈ list ↔ IsExported upper n = true
          ∧ ((∃ f ∈ recordFields r, f.Name = n) ∨ (∃ m ∈ t.methods, m.Name = n)) := by
  refine ⟨_, Dir_host upper fuel t r h, ?_, ?_⟩
  · intro n hn
    rw [List.mem_append, mem_exported_names upper (recordFields r) StructField.Name n,
      mem_exported_names upper t.methods Method.Name n] at hn
    rcases hn with hn | hn <;> exact hn.1
  · intro n
    rw [List.mem_append, mem_exported_names upper (recordFields r) StructField.Name n,
      mem_exported_names upper t.methods Method.Name n]
    constructor
    · rintro (⟨he, hf⟩ | ⟨he, hm⟩)
      · exact ⟨he, Or.inl hf⟩
      · exact ⟨he, Or.inr hm⟩
    · rintro ⟨he, hf | hm⟩
      · exact Or.inl ⟨he, hf⟩
      · exact Or.inr ⟨he, hm⟩

/-- C5, at the failing input. For a value of the type `P` of `type P *P`, a pointer type that
is its own element type, the loop of `ExporStructField` does not end, and `Dir` does not
return, however much fuel there is.  For the pointer to a record with the fields `Name` and
`secret` and a method `Greet` it returns `Name`, `Greet`. -/
theorem Dir_host_self_pointer (upper : Nat → Bool) (fuel : Nat) :
    exampleSelfPointer.Kind = .Ptr
    ∧ Dir upper fuel (.host exampleSelfPointer) = .outOfFuel
    ∧ Dir upper (fuel + 1) (.host examplePerson) = .returns [lit "Name", lit "Greet"] := by
  have h : stripPtr (fuel + 1) examplePerson
      = some (.struct (lit "main.Person") [] [⟨lit "Name", lit "string"⟩,
          ⟨lit "secret", lit "int"⟩]) := by
    cases fuel <;> rfl
  exact ⟨rfl, (host_outOfFuel upper fuel exampleSelfPointer (stripPtr_self fuel _ _)).2.1,
    (Dir_host upper (fuel + 1) examplePerson _ h).trans rfl⟩

/-- C14, at the failing input. For a value of the type `P` of `type P *P` the loop of `Doc`
over the pointer levels does not end, and `Doc` does not return, however much fuel there is.
For the pointer to a record with the fields `Name` and `secret` and a method `Greet` it returns
the type, the entry of `Name` and the entry of `Greet`. -/
theorem Doc_host_self_pointer (upper : Nat → Bool) (fuel : Nat) :
    Doc upper fuel (.host exampleSelfPointer) = .outOfFuel
    ∧ Doc upper (fuel + 1) (.host examplePerson)
        = .returns (lit "*main.Person" ++ lit "\nName\tstring"
            ++ lit "\nGreet\tfunc(*main.Person) string") := by
  have h : stripPtr (fuel + 1) examplePerson
      = some (.struct (lit "main.Person") [] [⟨lit "Name", lit "string"⟩,
          ⟨lit "secret", lit "int"⟩]) := by
    cases fuel <;> rfl
  exact ⟨(host_outOfFuel upper fuel exampleSelfPointer (stripPtr_self fuel _ _)).2.2,
    (Doc_host upper (fuel + 1) examplePerson _ h).trans rfl⟩

/-- C16, at the failing input. The type `P` of `type P *P` reaches no record and has no
method; `ExporStructField(P)` returns neither the error nor a list, and `Dir` and `Doc` return
neither the empty list nor the line of the type: none of the three returns, however much fuel
there is.  For an `int` the error is returned, `Dir` returns the empty list and `Doc` the
rendering of the type. -/
theorem ExporStructField_self_pointer (upper : Nat → Bool) (fuel : Nat) :
    ((∀ str ms fields, ¬ PointsTo exampleSelfPointer (.struct str ms fields))
      ∧ exampleSelfPointer.methods = []
      ∧ ExporStructField upper fuel exampleSelfPointer = none
      ∧ Dir upper fuel (.host exampleSelfPointer) = .outOfFuel
      ∧ Doc upper fuel (.host exampleSelfPointer) = .outOfFuel)
    ∧ (ExporStructField upper fuel exampleIntType = some (.error "type is not struct")
      ∧ Dir upper fuel (.host exampleIntType) = .returns []
      ∧ Doc upper fuel (.host exampleIntType) = .returns (lit "int")) := by
  refine ⟨⟨?_, rfl, host_outOfFuel upper fuel exampleSelfPointer (stripPtr_self fuel _ _)⟩, ?_⟩
  · intro str ms fields h
    cases h
  · cases fuel <;> exact ⟨rfl, rfl, rfl⟩

/-- C19, at the failing input. For the type `P` of `type P *P` neither `ExporStructField(P)`
nor `ExporStructField` of the pointer to `P` returns a result, however much fuel there is, and
`Dir` of a value of the type pointer to `P` does not return. -/
theorem ExporStructField_pointer_to_self (upper : Nat → Bool) (fuel : Nat) :
    ExporStructField upper fuel exampleSelfPointer = none
    ∧ ExporStructField upper fuel (.ptr (lit "*main.P") [] exampleSelfPointer) = none
    ∧ Dir upper fuel (.host (.ptr (lit "*main.P") [] exampleSelfPointer)) = .outOfFuel := by
  have h : stripPtr fuel (.ptr (lit "*main.P") [] exampleSelfPointer) = none := by
    cases fuel with
    | zero => rfl
    | succ n =>
      rw [stripPtr]
      exact stripPtr_self n _ _
  exact ⟨(host_outOfFuel upper fuel exampleSelfPointer (stripPtr_self fuel _ _)).1,
    (host_outOfFuel upper fuel _ h).1, (host_outOfFuel upper fuel _ h).2.1⟩

/-- C20, at the failing input. For a value of the type `P` of `type P *P` neither the walk of
`Doc` nor the walk of `Dir` comes to an end: there is no text of `Doc` and no list of `Dir` to
compare, however much fuel there is. -/
theorem Doc_Dir_self_pointer (upper : Nat → Bool) (fuel : Nat) :
    (∀ text, Doc upper fuel (.host exampleSelfPointer) ≠ .returns text)
    ∧ (∀ names, Dir upper fuel (.host exampleSelfPointer) ≠ .returns names) := by
  have h := host_outOfFuel upper fuel exampleSelfPointer (stripPtr_self fuel _ _)
  rw [h.2.1, h.2.2]
  exact ⟨fun _ e => (by cases e), fun _ e => (by cases e)⟩

/-! ## C17: FnList and FnTable -/

theorem mapAssign_new (table : List (GoString × Option Dyn)) (k : GoString) (v : Option Dyn)
    (h : k ∉ table.map Prod.fst) : mapAssign table k v = table ++ [(k, v)] := by
  unfold mapAssign
  rw [if_neg h]

/-- The loop of `FnTable` over a registry with distinct keys adds the entries that it keeps. -/
theorem FnTable_foldl (l acc : List (GoString × Option Dyn)) (hd : (l.map Prod.fst).Nodup)
    (hdis : ∀ kv ∈ l, kv.1 ∉ acc.map Prod.fst) :
    l.foldl (fun table kv =>
        if !HasPrefix kv.1 (lit "$") then mapAssign table kv.1 kv.2 else table) acc
      = acc ++ l.filter (fun kv => !HasPrefix kv.1 (lit "$")) := by
  induction l generalizing acc with
  | nil => simp
  | cons x xs ih =>
    have hx : x.1 ∉ xs.map Prod.fst := (List.nodup_cons.1 hd).1
    have hxs : (xs.map Prod.fst).Nodup := (List.nodup_cons.1 hd).2
    have hacc : x.1 ∉ acc.map Prod.fst := hdis x (List.mem_cons_self _ _)
    by_cases hp : HasPrefix x.1 (lit "$") = true
    · simp only [List.foldl_cons, hp, Bool.not_true, Bool.false_eq_true, if_false]
      rw [ih acc hxs (fun kv hkv => hdis kv (List.mem_cons_of_mem _ hkv))]
      simp [List.filter_cons, hp]
    · have hp' : HasPrefix x.1 (lit "$") = false := by simpa using hp
      simp only [List.foldl_cons, hp', Bool.not_false, if_true]
      rw [mapAssign_new acc x.1 x.2 hacc, ih (acc ++ [(x.1, x.2)]) hxs]
      · simp [List.filter_cons, hp']
      · intro kv hkv hmem
        simp only [List.map_append, List.map_cons, List.map_nil, List.mem_append,
          List.mem_singleton] at hmem
        rcases hmem with h | h
        · exact hdis kv (List.mem_cons_of_mem _ hkv) h
        · exact hx (h ▸ List.mem_map_of_mem Prod.fst hkv)

theorem FnTable_eq_filter (Fntable : List (GoString × Option Dyn))
    (hkeys : (Fntable.map Prod.fst).Nodup) :
    FnTable Fntable = Fntable.filter (fun kv => !HasPrefix kv.1 (lit "$")) := by
  unfold FnTable
  rw [FnTable_foldl Fntable [] hkeys (by simp)]
  simp

theorem lookup_filter_key {β : Type} (l : List (GoString × β)) (q : GoString → Bool)
    (k : GoString) :
    (l.filter (fun kv => q kv.1)).lookup k = if q k = true then l.lookup k else none := by
  induction l with
  | nil => simp
  | cons x xs ih =>
    obtain ⟨a, b⟩ := x
    by_cases hk : k = a
    · subst hk
      by_cases hq : q k = true
      · simp [List.filter_cons, hq, List.lookup_cons]
      · have hq' : q k = false := by simpa using hq
        simp only [List.filter_cons, hq', Bool.false_eq_true, if_false] at ih ⊢
        exact ih
    · have hb : (k == a) = false := by simpa using hk
      by_cases hqa : q a = true
      · simp only [List.filter_cons, hqa, if_true, List.lookup_cons, hb]
        exact ih
      · have hqa' : q a = false := by simpa using hqa
        simp only [List.filter_cons, hqa', Bool.false_eq_true, if_false, List.lookup_cons, hb]
        exact ih

theorem mem_keys_filter {β : Type} (l : List (GoString × β)) (q : GoString → Bool)
    (k : GoString) :
    k ∈ (l.filter (fun kv => q kv.1)).map (fun kv => kv.1)
      ↔ k ∈ l.map Prod.fst ∧ q k = true := by
  simp only [List.mem_map, List.mem_filter]
  constructor
  · rintro ⟨x, ⟨hx, hq⟩, rfl⟩
    exact ⟨⟨x, hx, rfl⟩, hq⟩
  · rintro ⟨⟨x, hx, rfl⟩, hq⟩
    exact ⟨x, ⟨hx, hq⟩, rfl⟩

/-- C17. For a registry of global functions (a map, whose keys are distinct), `FnTable()` is
the registry restricted to the names that do not start with `$`, each with the callable that
the registry holds, and `FnList()` lists exactly those names, each once: a name is in `FnList()`
exactly when it is a key of `FnTable()`, which is exactly when it is in the registry and does
not start with `$`. -/
theorem FnTable_FnList (Fntable : List (GoString × Option Dyn))
    (hkeys : (Fntable.map Prod.fst).Nodup) :
    (∀ k, (FnTable Fntable).lookup k
        = if HasPrefix k (lit "$") = true then none else Fntable.lookup k)
    ∧ ((FnTable Fntable).map Prod.fst).Nodup
    ∧ (FnList Fntable).Nodup
    ∧ (∀ k, (k ∈ FnList Fntable ↔ k ∈ (FnTable Fntable).map Prod.fst)
        ∧ (k ∈ FnList Fntable ↔ k ∈ Fntable.map Prod.fst ∧ HasPrefix k (lit "$") = false)) := by
  have hsub : List.Sublist
      ((Fntable.filter (fun kv => !HasPrefix kv.1 (lit "$"))).map Prod.fst)
      (Fntable.map Prod.fst) := (List.filter_sublist Fntable).map Prod.fst
  have hmem := mem_keys_filter Fntable (fun k => !HasPrefix k (lit "$"))
  rw [FnTable_eq_filter Fntable hkeys]
  refine ⟨?_, hkeys.sublist hsub, hkeys.sublist hsub, ?_⟩
  · intro k
    rw [lookup_filter_key Fntable (fun k => !HasPrefix k (lit "$")) k]
    by_cases hp : HasPrefix k (lit "$") = true
    · simp [hp]
    · simp [hp]
  · intro k
    refine ⟨Iff.rfl, ?_⟩
    unfold FnList
    rw [hmem k]
    simp

/-- A witness of C17: the registry with the functions `println` and `$neg`. -/
theorem FnTable_FnList_witness :
    (∀ k, (FnTable exampleRegistry).lookup k
        = if HasPrefix k (lit "$") = true then none else exampleRegistry.lookup k)
    ∧ ((FnTable exampleRegistry).map Prod.fst).Nodup
    ∧ (FnList exampleRegistry).Nodup
    ∧ (∀ k, (k ∈ FnList exampleRegistry ↔ k ∈ (FnTable exampleRegistry).map Prod.fst)
        ∧ (k ∈ FnList exampleRegistry
            ↔ k ∈ exampleRegistry.map Prod.fst ∧ HasPrefix k (lit "$") = false)) :=
  FnTable_FnList exampleRegistry (by decide)

/-! ## C18: no deduplication -/

theorem count_eq_one_of_nodup (l : List GoString) (n : GoString) (hn : n ∈ l)
    (hd : l.Nodup) : l.count n = 1 := by
  induction l with
  | nil => simp at hn
  | cons x xs ih =>
    have hx : x ∉ xs := (List.nodup_cons.1 hd).1
    have hxs : xs.Nodup := (List.nodup_cons.1 hd).2
    by_cases h : x = n
    · subst h
      simp [List.count_cons, List.count_eq_zero_of_not_mem hx]
    · have hn' : n ∈ xs := by
        rcases List.mem_cons.1 hn with e | e
        · exact absurd e.symm h
        · exact e
      have hb : (x == n) = false := by simpa using h
      simp [List.count_cons, hb, ih hn' hxs]

/-- C18. `Dir` does not remove duplicates among the members of an Object: for an Object `o`
with owning Class `C` (the keys of a map being distinct), the length of `Dir(o)` is the number
of functions of `C` plus the number of instance variables of `o`, and a name that is both a
function of `C` and an instance variable of `o` is in `Dir(o)` exactly twice. -/
theorem Dir_object_no_dedup (upper : Nat → Bool) (fuel : Nat) (C : Class)
    (vars : List (GoString × Option Dyn))
    (hf : (C.Fns.map (fun kv => kv.1)).Nodup) (hv : (vars.map (fun kv => kv.1)).Nodup) :
    ∃ list, Dir upper fuel (.obj (some ⟨some C, vars⟩)) = .returns list
      ∧ list.length = C.Fns.length + vars.length
      ∧ ∀ n, (∃ f, (n, f) ∈ C.Fns) → (∃ v, (n, v) ∈ vars) → list.count n = 2 := by
  refine ⟨C.Fns.map (fun kv : GoString × Function => kv.1)
    ++ vars.map (fun kv : GoString × Option Dyn => kv.1), rfl, by simp, ?_⟩
  intro n hfn hvar
  rw [List.count_append,
    count_eq_one_of_nodup _ n ((mem_map_fst C.Fns n).2 hfn) hf,
    count_eq_one_of_nodup _ n ((mem_map_fst vars n).2 hvar) hv]

/-- A witness of C18: an Object with the function `Foo` and the variables `Foo` and `x`. -/
theorem Dir_object_no_dedup_witness :
    ∃ list, Dir (fun _ => false) 0 (.obj (some ⟨some ⟨[(lit "Foo", ⟨lit "*exec.Function"⟩)]⟩,
        [(lit "Foo", some exampleInt), (lit "x", none)]⟩)) = .returns list
      ∧ list.length = (⟨[(lit "Foo", ⟨lit "*exec.Function"⟩)]⟩ : Class).Fns.length
          + [(lit "Foo", some exampleInt), (lit "x", (none : Option Dyn))].length
      ∧ ∀ n, (∃ f, (n, f) ∈ (⟨[(lit "Foo", ⟨lit "*exec.Function"⟩)]⟩ : Class).Fns) →
          (∃ v, (n, v) ∈ [(lit "Foo", some exampleInt), (lit "x", (none : Option Dyn))]) →
          list.count n = 2 :=
  Dir_object_no_dedup (fun _ => false) 0 ⟨[(lit "Foo", ⟨lit "*exec.Function"⟩)]⟩
    [(lit "Foo", some exampleInt), (lit "x", none)] (by decide) (by decide)

end QlangMeta
